import Mathlib

/-
Verification of the algo-visualizer stepwise traversal engine
(src/renderer/renderer.js): graph generation, DFS/BFS/Dijkstra/Prim/Kruskal
step state machines, and the union-find structure used by Kruskal.

Modelling conventions:
* JS numbers that hold node ids, weights and counts are Nat.
* A JS `Set` is a duplicate-free `List` (insert checks membership first,
  delete filters); a JS `Map` used as a finite map over node ids is either
  an association list or a total function `Nat → Nat` that is the identity
  off the ids it was initialised with (the code never queries it there).
* `Math.random()` draws are an oracle (`Rand`): `randomInt(0, i-1)` becomes
  `oracle i % i`, `Math.random() < edgeChance` becomes a Bool oracle per
  call site.  Every outcome the real code can produce corresponds to some
  oracle, and claims quantified over "every outcome of the random draws"
  are quantified over the oracle.
* `distances` entries are `Option Nat`, `none` standing for `Infinity`.
* `canonicalEdgeKey` returns the pair (low, high) instead of the string
  "low-high"; the string encoding is injective on such pairs.
* A JS array used as a stack (push/pop at the end) is a `List` with its
  head as the top; an array used as a queue (shift at the front) is a
  `List` with its head as the front.
-/

namespace AlgoViz

/-- Undirected weighted edge; `src`/`dst` model the source's `from`/`to`. -/
structure Edge where
  src : Nat
  dst : Nat
  weight : Nat
deriving DecidableEq

/-- Graph: node ids in order plus the edge list.  The source stores node
objects carrying a display label and position; only the id has any
algorithmic role, so a node is modelled by its id. -/
structure Graph where
  nodes : List Nat
  edges : List Edge
deriving DecidableEq

/-- JS `Set.add` on a set modelled as a duplicate-free list. -/
def setInsert (x : Nat) (l : List Nat) : List Nat :=
  if x ∈ l then l else x :: l

/-- JS `Set.delete`. -/
def setErase (x : Nat) (l : List Nat) : List Nat :=
  l.filter (fun y => y ≠ x)

/-- JS `Set.add` for sets of canonical edge keys. -/
def keyInsert (k : Nat × Nat) (l : List (Nat × Nat)) : List (Nat × Nat) :=
  if k ∈ l then l else k :: l

/-- `canonicalEdgeKey(a, b)` from the source (the pair behind "low-high"). -/
def canonicalEdgeKey (a b : Nat) : Nat × Nat := (min a b, max a b)

/-- The unordered pair an edge connects. -/
def pairKey (e : Edge) : Nat × Nat := canonicalEdgeKey e.src e.dst

/-- Two ids are adjacent when some edge joins them, in either orientation. -/
def AdjRel (edges : List Edge) (a b : Nat) : Prop :=
  ∃ e ∈ edges, (e.src = a ∧ e.dst = b) ∨ (e.src = b ∧ e.dst = a)

/-- Reachability along edges (undirected). -/
def Reach (edges : List Edge) : Nat → Nat → Prop :=
  Relation.ReflTransGen (AdjRel edges)

/-- Oracle for the `Math.random()` draws of `Graph.random`, one component
per call site: the spanning-tree target draw for node `i`, its weight draw,
the `Math.random() < edgeChance` test for pair `(i, j)`, and the weight
draw for pair `(i, j)`. -/
structure Rand where
  treeTarget : Nat → Nat
  treeWeight : Nat → Nat
  extraEdge : Nat → Nat → Bool
  extraWeight : Nat → Nat → Nat

/-- `Graph.randomWeight`: uniform in [1, 9] when enabled, else 1. -/
def randomWeight (withWeights : Bool) (draw : Nat) : Nat :=
  if withWeights then 1 + draw % 9 else 1

/-- The spanning-tree phase: node `i` (1 ≤ i < nodeCount) attaches to
`randomInt(0, i-1)`. -/
def treeEdges (nodeCount : Nat) (r : Rand) (ww : Bool) : List Edge :=
  (List.range' 1 (nodeCount - 1)).map fun i =>
    { src := i, dst := r.treeTarget i % i, weight := randomWeight ww (r.treeWeight i) }

/-- `Graph.edgeExists`. -/
def edgeExists (edges : List Edge) (a b : Nat) : Bool :=
  edges.any fun e => (e.src == a && e.dst == b) || (e.src == b && e.dst == a)

/-- All unordered pairs `(i, j)` with `i < j < nodeCount`, in the loop
order of the density phase. -/
def pairList (nodeCount : Nat) : List (Nat × Nat) :=
  (List.range nodeCount).flatMap fun i =>
    (List.range' (i + 1) (nodeCount - (i + 1))).map fun j => (i, j)

/-- The density phase: each candidate pair is added when its oracle fires
and no edge between the pair exists yet. -/
def addExtras (r : Rand) (ww : Bool) (pairs : List (Nat × Nat)) (edges : List Edge) :
    List Edge :=
  pairs.foldl (fun es p =>
    if r.extraEdge p.1 p.2 && !(edgeExists es p.1 p.2) then
      es ++ [{ src := p.1, dst := p.2, weight := randomWeight ww (r.extraWeight p.1 p.2) }]
    else es) edges

/-- `Graph.random(nodeCount, edgeChance, withWeights)`.  `edgeChance` is
absorbed into the `extraEdge` oracle. -/
def Graph.random (nodeCount : Nat) (r : Rand) (ww : Bool) : Graph :=
  { nodes := List.range nodeCount
    edges := addExtras r ww (pairList nodeCount) (treeEdges nodeCount r ww) }

/-- The node-count computation of `createGraphForSelection`:
`parseInt` either yields an integer (`some p`) or NaN (`none`); a finite
parse is clamped to [2, 25], NaN falls back to 8. -/
def selectedNodeCount (parsed : Option Int) : Nat :=
  match parsed with
  | none => 8
  | some p => (min 25 (max 2 p)).toNat

/-- `createGraphForSelection` (the algorithm config only picks the
edge-chance oracle and the weight flag, both already parameters here). -/
def createGraphForSelection (parsed : Option Int) (r : Rand) (ww : Bool) : Graph :=
  Graph.random (selectedNodeCount parsed) r ww

/-- Stable ascending insertion by a numeric key: the new element goes after
all existing elements with key less than or equal to its own. -/
def stableInsert {α : Type} (key : α → Nat) (x : α) : List α → List α
  | [] => [x]
  | y :: ys => if key y ≤ key x then y :: stableInsert key x ys else x :: y :: ys

/-- Stable ascending sort by a numeric key (models the stable JS
`Array.sort` with a numeric comparator). -/
def stableSort {α : Type} (key : α → Nat) (l : List α) : List α :=
  l.foldl (fun acc x => stableInsert key x acc) []

/-- The per-node neighbour pushes of `buildAdjacency`, in edge order. -/
def rawNeighbors (edges : List Edge) (u : Nat) : List Nat :=
  edges.foldr (fun e acc =>
    (if e.src = u then [e.dst] else []) ++ (if e.dst = u then [e.src] else []) ++ acc) []

/-- `buildAdjacency`: per-node neighbour ids, sorted ascending. -/
def buildAdjacency (g : Graph) : Nat → List Nat :=
  fun u => stableSort id (rawNeighbors g.edges u)

/-- The per-node `{to, weight}` pushes of `buildWeightedAdjacency`. -/
def rawWeightedNeighbors (edges : List Edge) (u : Nat) : List (Nat × Nat) :=
  edges.foldr (fun e acc =>
    (if e.src = u then [(e.dst, e.weight)] else [])
      ++ (if e.dst = u then [(e.src, e.weight)] else []) ++ acc) []

/-- `buildWeightedAdjacency`: sorted ascending by neighbour id. -/
def buildWeightedAdjacency (g : Graph) : Nat → List (Nat × Nat) :=
  fun u => stableSort (fun nb => nb.1) (rawWeightedNeighbors g.edges u)

/-- One status message, as the data `logStatus` interpolates into its
string.  `processed` carries the Dijkstra relaxation updates of the step
(empty list for "no updates"). -/
inductive Msg where
  | complete : Msg
  | skipVisited : Nat → Msg
  | visitedNode : Nat → Msg
  | processed : Nat → List (Nat × Nat) → Msg
  | addedEdge : Nat → Nat → Nat → Msg
  | skippedEdge : Nat → Nat → Nat → Msg
deriving DecidableEq

/-- DFS traversal state (`startDFSTraversal`).  `stack` holds the pending
nodes with the head as the top (the source pushes/pops at the array end). -/
structure DFSState where
  stack : List Nat
  stackSet : List Nat
  visited : List Nat
  adjacency : Nat → List Nat
  parents : List (Nat × Nat)
  edgesTraversed : List (Nat × Nat)
  graph : Graph
  finished : Bool

/-- `startDFSTraversal(graph)`. -/
def startDFS (g : Graph) : DFSState :=
  let startNode := g.nodes.headD 0
  { stack := [startNode], stackSet := [startNode], visited := [],
    adjacency := buildAdjacency g, parents := [], edgesTraversed := [],
    graph := g, finished := false }

/-- The neighbour-push body of `stepDFS`: push `n` when it is neither
visited nor pending, recording its parent on first discovery. -/
def dfsPush (nodeId : Nat) (st : DFSState) (n : Nat) : DFSState :=
  if st.visited.contains n || st.stackSet.contains n then st
  else { st with
    stack := n :: st.stack
    stackSet := n :: st.stackSet
    parents := if (st.parents.lookup n).isSome then st.parents
               else (n, nodeId) :: st.parents }

/-- `stepDFS()`: pop, skip if visited, else visit and push the unvisited,
not-pending neighbours in reverse (descending id) order. -/
def stepDFS (s : DFSState) : DFSState × Option Msg :=
  match s.stack with
  | [] => ({ s with finished := true }, some .complete)
  | nodeId :: rest =>
    let s1 := { s with stack := rest, stackSet := setErase nodeId s.stackSet }
    if s1.visited.contains nodeId then (s1, some (.skipVisited nodeId))
    else
      let s2 := { s1 with
        visited := nodeId :: s1.visited
        edgesTraversed :=
          match s1.parents.lookup nodeId with
          | some p => keyInsert (canonicalEdgeKey p nodeId) s1.edgesTraversed
          | none => s1.edgesTraversed }
      let s3 := ((s2.adjacency nodeId).reverse).foldl (dfsPush nodeId) s2
      (s3, some (.visitedNode nodeId))

/-- BFS traversal state (`startBFSTraversal`); `queue` head is the front. -/
structure BFSState where
  queue : List Nat
  queueSet : List Nat
  visited : List Nat
  adjacency : Nat → List Nat
  parents : List (Nat × Nat)
  edgesTraversed : List (Nat × Nat)
  edgesMST : List (Nat × Nat)
  graph : Graph
  finished : Bool

/-- `startBFSTraversal(graph)`. -/
def startBFS (g : Graph) : BFSState :=
  let startNode := g.nodes.headD 0
  { queue := [startNode], queueSet := [startNode], visited := [],
    adjacency := buildAdjacency g, parents := [], edgesTraversed := [],
    edgesMST := [], graph := g, finished := false }

/-- `stepBFS()`. -/
def stepBFS (s : BFSState) : BFSState × Option Msg :=
  match s.queue with
  | [] => ({ s with finished := true }, some .complete)
  | nodeId :: rest =>
    let s1 := { s with queue := rest, queueSet := setErase nodeId s.queueSet }
    if s1.visited.contains nodeId then (s1, some (.skipVisited nodeId))
    else
      let s2 := { s1 with
        visited := nodeId :: s1.visited
        edgesTraversed :=
          match s1.parents.lookup nodeId with
          | some p => keyInsert (canonicalEdgeKey p nodeId) s1.edgesTraversed
          | none => s1.edgesTraversed }
      let s3 := (s2.adjacency nodeId).foldl (fun st n =>
        if st.visited.contains n || st.queueSet.contains n then st
        else { st with
          queue := st.queue ++ [n]
          queueSet := n :: st.queueSet
          parents := if (st.parents.lookup n).isSome then st.parents
                     else (n, nodeId) :: st.parents }) s2
      (s3, some (.visitedNode nodeId))

/-- Dijkstra traversal state (`startDijkstraTraversal`).  `dist x = none`
models `Infinity`; `queue` entries are `(id, dist)` with the head as the
front. -/
structure DijkstraState where
  visited : List Nat
  dist : Nat → Option Nat
  previous : List (Nat × Nat)
  queue : List (Nat × Nat)
  adjacency : Nat → List (Nat × Nat)
  currentNode : Option Nat
  edgesTraversed : List (Nat × Nat)
  edgesMST : List (Nat × Nat)
  graph : Graph
  finished : Bool

/-- `candidate < distances.get(...)` where the right side may be Infinity. -/
def ltDist (c : Nat) : Option Nat → Bool
  | none => true
  | some v => c < v

/-- `enqueueByDistance`: linear scan for the first entry with strictly
greater distance, insert there, else push at the end. -/
def enqueueByDistance : List (Nat × Nat) → Nat × Nat → List (Nat × Nat)
  | [], item => [item]
  | e :: rest, item =>
    if item.2 < e.2 then item :: e :: rest else e :: enqueueByDistance rest item

/-- `startDijkstraTraversal(graph)`. -/
def startDijkstra (g : Graph) : DijkstraState :=
  let startNode := g.nodes.headD 0
  { visited := [], dist := fun x => if x = startNode then some 0 else none,
    previous := [], queue := [(startNode, 0)],
    adjacency := buildWeightedAdjacency g, currentNode := none,
    edgesTraversed := [], edgesMST := [], graph := g, finished := false }

/-- The while-loop head of `stepDijkstra`: discard already-settled queue
entries from the front; return the first usable entry and the rest, if
any. -/
def drainQueue (visited : List Nat) : List (Nat × Nat) →
    Option ((Nat × Nat) × List (Nat × Nat))
  | [] => none
  | e :: rest =>
    if visited.contains e.1 then drainQueue visited rest else some (e, rest)

/-- One iteration of the relaxation loop of `stepDijkstra`: try to relax
the edge from the settled node to neighbour `nb`, also collecting the
update message data. -/
def relaxOne (nodeId : Nat) (acc : DijkstraState × List (Nat × Nat))
    (nb : Nat × Nat) : DijkstraState × List (Nat × Nat) :=
  if acc.1.visited.contains nb.1 then acc
  else
    match acc.1.dist nodeId with
    | none => acc
    | some cd =>
      if ltDist (cd + nb.2) (acc.1.dist nb.1) then
        ({ acc.1 with
            dist := fun x => if x = nb.1 then some (cd + nb.2) else acc.1.dist x
            previous := (nb.1, nodeId) :: acc.1.previous
            queue := enqueueByDistance acc.1.queue (nb.1, cd + nb.2)
            edgesTraversed :=
              keyInsert (canonicalEdgeKey nodeId nb.1) acc.1.edgesTraversed },
          acc.2 ++ [(nb.1, cd + nb.2)])
      else acc

/-- The relaxation loop of `stepDijkstra` over the neighbours of the
settled node. -/
def relaxNeighbors (nodeId : Nat) (s : DijkstraState) :
    DijkstraState × List (Nat × Nat) :=
  (s.adjacency nodeId).foldl (relaxOne nodeId) (s, [])

/-- `stepDijkstra()`. -/
def stepDijkstra (s : DijkstraState) : DijkstraState × Option Msg :=
  match drainQueue s.visited s.queue with
  | none => ({ s with queue := [], finished := true, currentNode := none }, some .complete)
  | some (node, rest) =>
    let s1 := { s with
      queue := rest
      currentNode := some (node.1)
      visited := node.1 :: s.visited }
    let res := relaxNeighbors node.1 s1
    (res.1, some (.processed node.1 res.2))

/-- `enqueueEdgeByWeight`: linear scan for the first entry with strictly
greater weight, insert there, else push at the end. -/
def enqueueEdgeByWeight : List Edge → Edge → List Edge
  | [], e => [e]
  | q :: rest, e =>
    if e.weight < q.weight then e :: q :: rest else q :: enqueueEdgeByWeight rest e

/-- Prim traversal state (`startPrimTraversal`); `queue` holds candidate
edges sorted by weight, head = front. -/
structure PrimState where
  visited : List Nat
  adjacency : Nat → List (Nat × Nat)
  queue : List Edge
  edgesTraversed : List (Nat × Nat)
  edgesMST : List (Nat × Nat)
  graph : Graph
  finished : Bool

/-- The candidate-enqueue body shared by `startPrim` and `stepPrim`:
enqueue the edge `u → nb` unless `nb` is already visited.  (`startPrim`
passes an empty visited list because its loop has no visited check.) -/
def primEnqueue (vis : List Nat) (u : Nat) (q : List Edge) (nb : Nat × Nat) : List Edge :=
  if vis.contains nb.1 then q
  else enqueueEdgeByWeight q { src := u, dst := nb.1, weight := nb.2 }

/-- `startPrimTraversal(graph)`. -/
def startPrim (g : Graph) : PrimState :=
  let startNode := g.nodes.headD 0
  let adj := buildWeightedAdjacency g
  { visited := [startNode], adjacency := adj,
    queue := (adj startNode).foldl (primEnqueue [] startNode) [],
    edgesTraversed := [], edgesMST := [], graph := g, finished := false }

/-- `stepPrim()`: empty queue finishes; a popped edge whose target is
already visited is discarded with no message; otherwise the target joins
the tree and its outgoing candidates are enqueued. -/
def stepPrim (s : PrimState) : PrimState × Option Msg :=
  match s.queue with
  | [] => ({ s with finished := true }, some .complete)
  | edge :: rest =>
    if s.visited.contains edge.dst then ({ s with queue := rest }, none)
    else
      let s1 := { s with
        queue := rest
        visited := edge.dst :: s.visited
        edgesMST := keyInsert (canonicalEdgeKey edge.src edge.dst) s.edgesMST }
      let s2 := { s1 with
        queue := (s1.adjacency edge.dst).foldl (primEnqueue s1.visited edge.dst) s1.queue }
      (s2, some (.addedEdge edge.src edge.dst edge.weight))

/-- Kruskal traversal state (`startKruskalTraversal`).  `parent`/`rank`
model the JS Maps as total functions that are the identity / zero off the
node ids they were initialised with (the code never queries them there). -/
structure KruskalState where
  remainingEdges : List Edge
  parent : Nat → Nat
  rank : Nat → Nat
  edgesMST : List (Nat × Nat)
  edgesTraversed : List (Nat × Nat)
  graph : Graph
  finished : Bool

/-- The edge list sorted ascending by weight (stable, as JS sort). -/
def sortEdges (edges : List Edge) : List Edge :=
  stableSort (fun e => e.weight) edges

/-- `startKruskalTraversal(graph)`. -/
def startKruskal (g : Graph) : KruskalState :=
  { remainingEdges := sortEdges g.edges
    parent := fun x => x
    rank := fun _ => 0
    edgesMST := []
    edgesTraversed := []
    graph := g
    finished := false }

/-- `findRoot(nodeId, parent)`, fuelled.  The source recursion terminates
because the parent map stays an acyclic forest (proved below); on every
reachable state the fuel passed (the node count) never runs out, so the
fuel-exhausted fallback is never taken.  The result is the root together
with the path-compressed map. -/
def findRootAux : Nat → (Nat → Nat) → Nat → Nat × (Nat → Nat)
  | 0, p, x => (x, p)
  | fuel + 1, p, x =>
    if p x = x then (x, p)
    else
      let r := findRootAux fuel p (p x)
      (r.1, fun y => if y = x then r.1 else r.2 y)

/-- `unionSets(a, b, parent, rank)`: returns (added, parent, rank). -/
def unionSets (fuel a b : Nat) (p rank : Nat → Nat) :
    Bool × (Nat → Nat) × (Nat → Nat) :=
  let fa := findRootAux fuel p a
  let fb := findRootAux fuel fa.2 b
  let rootA := fa.1
  let rootB := fb.1
  let p2 := fb.2
  if rootA = rootB then (false, p2, rank)
  else if rank rootA < rank rootB then
    (true, fun y => if y = rootA then rootB else p2 y, rank)
  else if rank rootB < rank rootA then
    (true, fun y => if y = rootB then rootA else p2 y, rank)
  else
    (true, fun y => if y = rootB then rootA else p2 y,
     fun y => if y = rootA then rank rootA + 1 else rank y)

/-- `stepKruskal()`: terminate when no edges remain or the MST already has
`nodeCount - 1` edges; otherwise pop the cheapest edge and union. -/
def stepKruskal (s : KruskalState) : KruskalState × Option Msg :=
  match s.remainingEdges with
  | [] => ({ s with finished := true }, some .complete)
  | edge :: rest =>
    if s.graph.nodes.length - 1 ≤ s.edgesMST.length then
      ({ s with finished := true }, some .complete)
    else
      let u := unionSets s.graph.nodes.length edge.src edge.dst s.parent s.rank
      let s1 := { s with
        remainingEdges := rest
        parent := u.2.1
        rank := u.2.2
        edgesTraversed := keyInsert (canonicalEdgeKey edge.src edge.dst) s.edgesTraversed }
      if u.1 then
        ({ s1 with edgesMST := keyInsert (canonicalEdgeKey edge.src edge.dst) s1.edgesMST },
         some (.addedEdge edge.src edge.dst edge.weight))
      else (s1, some (.skippedEdge edge.src edge.dst edge.weight))

/-- The bound traversal, tagged by algorithm (the source branches on the
string field `type`). -/
inductive Traversal where
  | dfs : DFSState → Traversal
  | bfs : BFSState → Traversal
  | dijkstra : DijkstraState → Traversal
  | prim : PrimState → Traversal
  | kruskal : KruskalState → Traversal

/-- The `finished` flag of the bound traversal. -/
def Traversal.finished : Traversal → Bool
  | .dfs s => s.finished
  | .bfs s => s.finished
  | .dijkstra s => s.finished
  | .prim s => s.finished
  | .kruskal s => s.finished

/-- `stepTraversal()` for a traversal bound to the current graph with a
matching algorithm selection (the mismatch/restart path is upstream of the
part modelled here): an already-finished traversal returns at once, with
no state change and no status message; otherwise dispatch on the
algorithm. -/
def stepTraversal (t : Traversal) : Traversal × Option Msg :=
  if t.finished then (t, none)
  else
    match t with
    | .dfs s => let r := stepDFS s; (.dfs r.1, r.2)
    | .bfs s => let r := stepBFS s; (.bfs r.1, r.2)
    | .dijkstra s => let r := stepDijkstra s; (.dijkstra r.1, r.2)
    | .prim s => let r := stepPrim s; (.prim r.1, r.2)
    | .kruskal s => let r := stepKruskal s; (.kruskal r.1, r.2)

/-- State after `k` raw DFS steps. -/
def dfsIter (g : Graph) : Nat → DFSState
  | 0 => startDFS g
  | k + 1 => (stepDFS (dfsIter g k)).1

/-- Message produced by DFS step `k + 1`. -/
def dfsMsg (g : Graph) (k : Nat) : Option Msg := (stepDFS (dfsIter g k)).2

/-- State after `k` Dijkstra steps. -/
def dijkstraIter (g : Graph) : Nat → DijkstraState
  | 0 => startDijkstra g
  | k + 1 => (stepDijkstra (dijkstraIter g k)).1

/-- State after `k` Prim steps. -/
def primIter (g : Graph) : Nat → PrimState
  | 0 => startPrim g
  | k + 1 => (stepPrim (primIter g k)).1

/-- State after `k` Kruskal steps. -/
def kruskalIter (g : Graph) : Nat → KruskalState
  | 0 => startKruskal g
  | k + 1 => (stepKruskal (kruskalIter g k)).1

/-- Message produced by Kruskal step `k + 1`. -/
def kruskalMsg (g : Graph) (k : Nat) : Option Msg := (stepKruskal (kruskalIter g k)).2

/-- The fixed 4-node Dijkstra test graph: edges 0-1(1), 1-2(2), 0-2(5),
2-3(1). -/
def g4 : Graph :=
  { nodes := [0, 1, 2, 3]
    edges := [⟨0, 1, 1⟩, ⟨1, 2, 2⟩, ⟨0, 2, 5⟩, ⟨2, 3, 1⟩] }

/-- The fixed 3-node scenario graph: edges 0-1(2), 1-2(3), 0-2(9). -/
def g6 : Graph :=
  { nodes := [0, 1, 2]
    edges := [⟨0, 1, 2⟩, ⟨1, 2, 3⟩, ⟨0, 2, 9⟩] }

/-- A reachable finished traversal: the DFS on `g6` after four steps
(three visits and one completing step). -/
def finishedDFS : Traversal := Traversal.dfs (dfsIter g6 4)

/-- Claim C1: on the fixed 4-node graph with edges 0-1(1), 1-2(2), 0-2(5),
2-3(1), stepping Dijkstra from node 0 until `finished` becomes true (the
fifth step finishes) yields distances 0 ↦ 0, 1 ↦ 1, 2 ↦ 3, 3 ↦ 4. -/
theorem dijkstra_fixed_graph_distances :
    (∀ k < 5, (dijkstraIter g4 k).finished = false)
    ∧ (dijkstraIter g4 5).finished = true
    ∧ (dijkstraIter g4 5).dist 0 = some 0
    ∧ (dijkstraIter g4 5).dist 1 = some 1
    ∧ (dijkstraIter g4 5).dist 2 = some 3
    ∧ (dijkstraIter g4 5).dist 3 = some 4 := by decide

/-- Claim C6 (counterexample): on the 3-node scenario graph, no Kruskal
step ever rejects edge 0-2 as a cycle-former: the skip message for it is
never produced, at any step count. -/
theorem kruskal_rejection_refuted :
    ¬ ∃ k : Nat, kruskalMsg g6 k = some (Msg.skippedEdge 0 2 9) := by
  rintro ⟨k, hk⟩
  have stable : ∀ m : Nat, kruskalIter g6 (m + 3) = kruskalIter g6 3 := by
    intro m
    induction m with
    | zero => rfl
    | succ m ih =>
      show (stepKruskal (kruskalIter g6 (m + 3))).1 = kruskalIter g6 3
      rw [ih]
      rfl
  rcases Nat.lt_or_ge k 3 with hlt | hge
  · interval_cases k <;> exact absurd hk (by decide)
  · obtain ⟨m, rfl⟩ : ∃ m, k = m + 3 := ⟨k - 3, by omega⟩
    have : kruskalMsg g6 (m + 3) = some Msg.complete := by
      show (stepKruskal (kruskalIter g6 (m + 3))).2 = some Msg.complete
      rw [stable]
      rfl
    rw [this] at hk
    exact Msg.noConfusion (Option.some.inj hk)

/-- Claim C6 (amended): on the 3-node scenario graph DFS from 0 visits the
nodes in order 0, 1, 2, and Kruskal run to completion puts exactly the
edges 0-1 and 1-2 into the MST; edge 0-2 is never examined, because the
run terminates as soon as the MST holds nodeCount - 1 edges (the edge
stays in `remainingEdges` and no cycle-skip message is produced). -/
theorem dfs_kruskal_fixed_scenario :
    (dfsMsg g6 0 = some (Msg.visitedNode 0)
      ∧ dfsMsg g6 1 = some (Msg.visitedNode 1)
      ∧ dfsMsg g6 2 = some (Msg.visitedNode 2)
      ∧ dfsMsg g6 3 = some Msg.complete)
    ∧ ((kruskalIter g6 3).finished = true
      ∧ (0, 1) ∈ (kruskalIter g6 3).edgesMST
      ∧ (1, 2) ∈ (kruskalIter g6 3).edgesMST
      ∧ (kruskalIter g6 3).edgesMST.length = 2
      ∧ (kruskalIter g6 3).remainingEdges = [⟨0, 2, 9⟩]
      ∧ kruskalMsg g6 0 = some (Msg.addedEdge 0 1 2)
      ∧ kruskalMsg g6 1 = some (Msg.addedEdge 1 2 3)
      ∧ kruskalMsg g6 2 = some Msg.complete) := by decide

/-- Claim C4 (counterexample): a `step()` on an already-finished traversal
leaves the state unchanged but is NOT reported via a status message: the
code returns silently, so "no-op and reported via a status message" fails
on this reachable finished DFS traversal. -/
theorem finished_step_message_refuted :
    ¬ ((stepTraversal finishedDFS).1 = finishedDFS
        ∧ ∃ m, (stepTraversal finishedDFS).2 = some m) := by
  rintro ⟨-, m, hm⟩
  rw [show (stepTraversal finishedDFS).2 = none from rfl] at hm
  exact Option.noConfusion hm

/-- Claim C4 (amended): a `step()` call on an already-finished traversal
(any of the five algorithms) is a no-op on the traversal state and
produces no status message; it returns silently rather than failing. -/
theorem finished_step_noop_silent (t : Traversal) (h : t.finished = true) :
    stepTraversal t = (t, none) := by
  simp [stepTraversal, h]

/-- Witness for `finished_step_noop_silent` at the reachable finished DFS
traversal on `g6`. -/
theorem finished_step_noop_silent_witness :
    finishedDFS.finished = true ∧ stepTraversal finishedDFS = (finishedDFS, none) :=
  ⟨by decide, finished_step_noop_silent finishedDFS (by decide)⟩

/-- The DFS worklist invariant: the stack is duplicate-free, no stack
entry is visited, and `stackSet` mirrors the stack's membership. -/
def DFSInv (s : DFSState) : Prop :=
  s.stack.Nodup ∧ (∀ x ∈ s.stack, x ∉ s.visited) ∧ (∀ x, x ∈ s.stackSet ↔ x ∈ s.stack)

lemma dfsPush_visited (nodeId : Nat) (st : DFSState) (n : Nat) :
    (dfsPush nodeId st n).visited = st.visited := by
  unfold dfsPush
  split <;> rfl

lemma dfsPush_inv (nodeId : Nat) (st : DFSState) (n : Nat) (h : DFSInv st) :
    DFSInv (dfsPush nodeId st n) := by
  obtain ⟨hnd, hdis, hsync⟩ := h
  unfold dfsPush
  split
  · exact ⟨hnd, hdis, hsync⟩
  · rename_i hguard
    have hg : n ∉ st.visited ∧ n ∉ st.stackSet := by
      simpa [not_or] using hguard
    have hnstack : n ∉ st.stack := fun hmem => hg.2 ((hsync n).mpr hmem)
    refine ⟨List.nodup_cons.mpr ⟨hnstack, hnd⟩, ?_, ?_⟩
    · intro x hx
      rcases List.mem_cons.mp hx with rfl | hx
      · exact hg.1
      · exact hdis x hx
    · intro x
      simp only [List.mem_cons]
      exact or_congr Iff.rfl (hsync x)

lemma foldl_dfsPush_inv (nodeId : Nat) (ns : List Nat) (st : DFSState)
    (h : DFSInv st) : DFSInv (ns.foldl (dfsPush nodeId) st) := by
  induction ns generalizing st with
  | nil => exact h
  | cons n ns ih => exact ih _ (dfsPush_inv nodeId st n h)

lemma setErase_mem (x n : Nat) (l : List Nat) :
    x ∈ setErase n l ↔ x ∈ l ∧ x ≠ n := by
  unfold setErase
  simp [List.mem_filter]

lemma stepDFS_inv (s : DFSState) (h : DFSInv s) : DFSInv (stepDFS s).1 := by
  obtain ⟨hnd, hdis, hsync⟩ := h
  cases hst : s.stack with
  | nil =>
    have he : (stepDFS s).1 = { s with finished := true } := by
      simp [stepDFS, hst]
    rw [he]
    exact ⟨hnd, hdis, hsync⟩
  | cons nodeId rest =>
    rw [hst] at hnd hdis
    have hndr : rest.Nodup := (List.nodup_cons.mp hnd).2
    have hhead : nodeId ∉ rest := (List.nodup_cons.mp hnd).1
    have hs1 : ∀ x, x ∈ setErase nodeId s.stackSet ↔ x ∈ rest := by
      intro x
      rw [setErase_mem, hsync, hst, List.mem_cons]
      constructor
      · rintro ⟨rfl | hx, hne⟩
        · exact absurd rfl hne
        · exact hx
      · intro hx
        exact ⟨Or.inr hx, fun heq => hhead (heq ▸ hx)⟩
    by_cases hv : nodeId ∈ s.visited
    · have he : (stepDFS s).1 =
          { s with stack := rest, stackSet := setErase nodeId s.stackSet } := by
        simp [stepDFS, hst, hv]
      rw [he]
      exact ⟨hndr, fun x hx => hdis x (List.mem_cons_of_mem _ hx), hs1⟩
    · simp only [stepDFS, hst]
      rw [if_neg (by simpa using hv)]
      apply foldl_dfsPush_inv
      refine ⟨hndr, ?_, hs1⟩
      intro x hx hxm
      rcases List.mem_cons.mp hxm with heq | hxv
      · exact hhead (heq ▸ hx)
      · exact hdis x (List.mem_cons_of_mem _ hx) hxv

lemma dfsIter_inv (g : Graph) (k : Nat) : DFSInv (dfsIter g k) := by
  induction k with
  | zero =>
    refine ⟨List.nodup_singleton _, ?_, fun x => Iff.rfl⟩
    intro x _ hx
    exact absurd hx (List.not_mem_nil x)
  | succ k ih => exact stepDFS_inv _ ih

lemma stepDFS_no_skip (s : DFSState) (h : DFSInv s) (n : Nat) :
    (stepDFS s).2 ≠ some (Msg.skipVisited n) := by
  obtain ⟨hnd, hdis, hsync⟩ := h
  cases hst : s.stack with
  | nil => simp [stepDFS, hst]
  | cons nodeId rest =>
    have hnv : nodeId ∉ s.visited := hdis nodeId (by rw [hst]; exact List.mem_cons_self _ _)
    simp only [stepDFS, hst]
    rw [if_neg (by simpa using hnv)]
    simp

/-- Claim C2 (counterexample, negation of the claim): in no reachable DFS
traversal state does the stack hold an already-visited or duplicated node,
and no `step()` ever takes the skip-already-visited branch. -/
theorem dfs_stale_entry_refuted :
    ¬ ∃ (g : Graph) (k : Nat),
      (∃ x ∈ (dfsIter g k).stack, x ∈ (dfsIter g k).visited)
      ∨ ¬ (dfsIter g k).stack.Nodup
      ∨ ∃ n, (stepDFS (dfsIter g k)).2 = some (Msg.skipVisited n) := by
  rintro ⟨g, k, ⟨x, hx, hxv⟩ | hnd | ⟨n, hn⟩⟩
  · exact (dfsIter_inv g k).2.1 x hx hxv
  · exact hnd (dfsIter_inv g k).1
  · exact stepDFS_no_skip _ (dfsIter_inv g k) n hn

/-- Claim C2 (amended): the "skip already visited" branch of `stepDFS` is
dead code: in every reachable DFS traversal state the stack is
duplicate-free, contains no visited node, and the next step never produces
a skip message. -/
theorem dfs_stack_entries_fresh (g : Graph) (k : Nat) :
    (dfsIter g k).stack.Nodup
    ∧ (∀ x ∈ (dfsIter g k).stack, x ∉ (dfsIter g k).visited)
    ∧ ∀ n, (stepDFS (dfsIter g k)).2 ≠ some (Msg.skipVisited n) :=
  ⟨(dfsIter_inv g k).1, (dfsIter_inv g k).2.1,
    fun n => stepDFS_no_skip _ (dfsIter_inv g k) n⟩

lemma mem_range'_iff (m s n : Nat) : m ∈ List.range' s n ↔ s ≤ m ∧ m < s + n := by
  rw [List.mem_range']
  constructor
  · rintro ⟨i, hi, rfl⟩
    omega
  · rintro ⟨h1, h2⟩
    exact ⟨m - s, by omega, by omega⟩

lemma addExtras_subset (r : Rand) (ww : Bool) (pairs : List (Nat × Nat))
    (es : List Edge) (e : Edge) (he : e ∈ es) : e ∈ addExtras r ww pairs es := by
  induction pairs generalizing es with
  | nil => exact he
  | cons p ps ih =>
    unfold addExtras
    rw [List.foldl_cons]
    split
    · exact ih _ (List.mem_append_left _ he)
    · exact ih _ he

lemma addExtras_length (r : Rand) (ww : Bool) (pairs : List (Nat × Nat))
    (es : List Edge) : es.length ≤ (addExtras r ww pairs es).length := by
  induction pairs generalizing es with
  | nil => exact Nat.le_refl _
  | cons p ps ih =>
    unfold addExtras
    rw [List.foldl_cons]
    split
    · calc es.length ≤ (es ++ [_]).length := by simp
        _ ≤ _ := ih _
    · exact ih es

lemma treeEdges_length (nodeCount : Nat) (r : Rand) (ww : Bool) :
    (treeEdges nodeCount r ww).length = nodeCount - 1 := by
  simp [treeEdges]

lemma tree_edge_mem (nodeCount : Nat) (r : Rand) (ww : Bool) (i : Nat)
    (h1 : 1 ≤ i) (h2 : i < nodeCount) :
    ({ src := i, dst := r.treeTarget i % i,
       weight := randomWeight ww (r.treeWeight i) } : Edge) ∈ treeEdges nodeCount r ww := by
  unfold treeEdges
  exact List.mem_map.mpr ⟨i, (mem_range'_iff i 1 (nodeCount - 1)).mpr ⟨h1, by omega⟩, rfl⟩

lemma Reach_mono (E1 E2 : List Edge) (hsub : ∀ e ∈ E1, e ∈ E2) (a b : Nat)
    (h : Reach E1 a b) : Reach E2 a b := by
  refine Relation.ReflTransGen.mono ?_ h
  rintro x y ⟨e, he, hor⟩
  exact ⟨e, hsub e he, hor⟩

lemma reach_tree (nodeCount : Nat) (r : Rand) (ww : Bool) :
    ∀ i, i < nodeCount → Reach (treeEdges nodeCount r ww) 0 i := by
  intro i
  induction i using Nat.strong_induction_on with
  | _ i ih =>
    intro hi
    rcases Nat.eq_zero_or_pos i with rfl | hpos
    · exact Relation.ReflTransGen.refl
    · have htlt : r.treeTarget i % i < i := Nat.mod_lt _ hpos
      have hadj : AdjRel (treeEdges nodeCount r ww) (r.treeTarget i % i) i :=
        ⟨_, tree_edge_mem nodeCount r ww i hpos hi, Or.inr ⟨rfl, rfl⟩⟩
      exact Relation.ReflTransGen.tail (ih _ htlt (lt_trans htlt hi)) hadj

/-- Claim C3: for every nodeCount ≥ 2 and every outcome of the random
draws, `Graph.random` returns a connected graph (every node reachable from
node 0) with at least `nodeCount - 1` edges.  (Being a total Lean
function, it also signals no error.) -/
theorem graph_random_connected (nodeCount : Nat) (r : Rand) (ww : Bool)
    (h : 2 ≤ nodeCount) :
    (∀ x ∈ (Graph.random nodeCount r ww).nodes,
      Reach (Graph.random nodeCount r ww).edges 0 x)
    ∧ nodeCount - 1 ≤ (Graph.random nodeCount r ww).edges.length := by
  constructor
  · intro x hx
    have hlt : x < nodeCount := List.mem_range.mp hx
    exact Reach_mono _ _ (fun e he => addExtras_subset r ww _ _ e he) 0 x
      (reach_tree nodeCount r ww x hlt)
  · calc nodeCount - 1 = (treeEdges nodeCount r ww).length :=
        (treeEdges_length nodeCount r ww).symm
      _ ≤ _ := addExtras_length r ww _ _

/-- A fixed outcome of the random draws, for witnesses. -/
def rand0 : Rand :=
  { treeTarget := fun _ => 0
    treeWeight := fun _ => 0
    extraEdge := fun _ _ => false
    extraWeight := fun _ _ => 0 }

/-- Witness for `graph_random_connected` at nodeCount 2 and a concrete
draw outcome. -/
theorem graph_random_connected_witness :
    (2 : Nat) ≤ 2
    ∧ ((∀ x ∈ (Graph.random 2 rand0 true).nodes,
          Reach (Graph.random 2 rand0 true).edges 0 x)
      ∧ 2 - 1 ≤ (Graph.random 2 rand0 true).edges.length) :=
  ⟨by decide, graph_random_connected 2 rand0 true (by decide)⟩

/-- Claim C7: the node count used for generation is clamped to [2, 25]
for every parse outcome (NaN falls back to 8), so generation always
succeeds and the produced graph has between 2 and 25 nodes. -/
theorem node_count_clamped (parsed : Option Int) (r : Rand) (ww : Bool) :
    2 ≤ (createGraphForSelection parsed r ww).nodes.length
    ∧ (createGraphForSelection parsed r ww).nodes.length ≤ 25 := by
  have hlen : (createGraphForSelection parsed r ww).nodes.length
      = selectedNodeCount parsed := by
    simp [createGraphForSelection, Graph.random]
  rw [hlen]
  cases parsed with
  | none => exact ⟨by decide, by decide⟩
  | some p =>
    show 2 ≤ (min 25 (max 2 p)).toNat ∧ (min 25 (max 2 p)).toNat ≤ 25
    omega

lemma pairKey_mk (a b w : Nat) (hab : a < b) :
    pairKey { src := a, dst := b, weight := w } = (a, b) := by
  simp only [pairKey, canonicalEdgeKey, Prod.mk.injEq]
  omega

lemma pairKey_eq_iff (a b : Nat) (hab : a < b) (e : Edge) :
    pairKey e = (a, b) ↔ (e.src = a ∧ e.dst = b) ∨ (e.src = b ∧ e.dst = a) := by
  simp only [pairKey, canonicalEdgeKey, Prod.mk.injEq]
  omega

lemma edgeExists_false (es : List Edge) (a b : Nat) (h : edgeExists es a b = false) :
    ∀ e ∈ es, ¬((e.src = a ∧ e.dst = b) ∨ (e.src = b ∧ e.dst = a)) := by
  intro e he
  have := List.any_eq_false.mp h e he
  simpa [not_or] using this

lemma treeEdges_pairwise (nodeCount : Nat) (r : Rand) (ww : Bool) :
    (treeEdges nodeCount r ww).Pairwise (fun e1 e2 => pairKey e1 ≠ pairKey e2) := by
  unfold treeEdges
  rw [List.pairwise_map]
  refine (List.pairwise_lt_range' 1 (nodeCount - 1)).imp_of_mem ?_
  intro a b ha hb hab
  have ha1 : 1 ≤ a := ((mem_range'_iff a 1 _).mp ha).1
  have hb1 : 1 ≤ b := ((mem_range'_iff b 1 _).mp hb).1
  have hka : pairKey ⟨a, r.treeTarget a % a, randomWeight ww (r.treeWeight a)⟩
      = (r.treeTarget a % a, a) := by
    simp only [pairKey, canonicalEdgeKey, Prod.mk.injEq]
    have := Nat.mod_lt (r.treeTarget a) ha1
    omega
  have hkb : pairKey ⟨b, r.treeTarget b % b, randomWeight ww (r.treeWeight b)⟩
      = (r.treeTarget b % b, b) := by
    simp only [pairKey, canonicalEdgeKey, Prod.mk.injEq]
    have := Nat.mod_lt (r.treeTarget b) hb1
    omega
  rw [hka, hkb]
  intro hcontra
  exact absurd (Prod.mk.injEq _ _ _ _ ▸ hcontra).2 (Nat.ne_of_lt hab)

lemma addExtras_pairwise (r : Rand) (ww : Bool) (pairs : List (Nat × Nat))
    (es : List Edge) (hp : ∀ p ∈ pairs, p.1 < p.2)
    (h : es.Pairwise (fun e1 e2 => pairKey e1 ≠ pairKey e2)) :
    (addExtras r ww pairs es).Pairwise (fun e1 e2 => pairKey e1 ≠ pairKey e2) := by
  induction pairs generalizing es with
  | nil => exact h
  | cons p ps ih =>
    have hp1 : p.1 < p.2 := hp p (List.mem_cons_self _ _)
    unfold addExtras
    rw [List.foldl_cons]
    split
    · rename_i hcond
      have hne : edgeExists es p.1 p.2 = false := by
        rcases Bool.and_eq_true _ _ |>.mp hcond with ⟨-, hr⟩
        simpa using hr
      refine ih _ (fun q hq => hp q (List.mem_cons_of_mem _ hq)) ?_
      refine List.pairwise_append.mpr ⟨h, List.pairwise_singleton _ _, ?_⟩
      intro x hx y hy
      rw [List.mem_singleton] at hy
      subst hy
      rw [pairKey_mk _ _ _ hp1]
      intro hcontra
      exact edgeExists_false es p.1 p.2 hne x hx ((pairKey_eq_iff p.1 p.2 hp1 x).mp hcontra)
    · exact ih _ (fun q hq => hp q (List.mem_cons_of_mem _ hq)) h

lemma pairList_lt (nodeCount : Nat) : ∀ p ∈ pairList nodeCount, p.1 < p.2 := by
  intro p hp
  unfold pairList at hp
  rw [List.mem_flatMap] at hp
  obtain ⟨i, -, hp⟩ := hp
  rw [List.mem_map] at hp
  obtain ⟨j, hj, rfl⟩ := hp
  have := (mem_range'_iff j (i + 1) _).mp hj
  omega

/-- Claim C8: for every generated graph and every outcome of the random
draws, no unordered node pair appears more than once in the edge
sequence. -/
theorem graph_random_no_duplicate_pairs (nodeCount : Nat) (r : Rand) (ww : Bool) :
    ((Graph.random nodeCount r ww).edges).Pairwise
      (fun e1 e2 => pairKey e1 ≠ pairKey e2) :=
  addExtras_pairwise r ww (pairList nodeCount) (treeEdges nodeCount r ww)
    (pairList_lt nodeCount) (treeEdges_pairwise nodeCount r ww)

lemma relaxOne_preserves (nodeId : Nat) (acc : DijkstraState × List (Nat × Nat))
    (nb : Nat × Nat) :
    (relaxOne nodeId acc nb).1.visited = acc.1.visited
    ∧ (relaxOne nodeId acc nb).1.finished = acc.1.finished := by
  constructor <;>
    · unfold relaxOne
      split
      · rfl
      · split
        · rfl
        · split
          · rfl
          · rfl

lemma relax_fold_preserves (nodeId : Nat) (l : List (Nat × Nat))
    (acc : DijkstraState × List (Nat × Nat)) :
    (l.foldl (relaxOne nodeId) acc).1.visited = acc.1.visited
    ∧ (l.foldl (relaxOne nodeId) acc).1.finished = acc.1.finished := by
  induction l generalizing acc with
  | nil => exact ⟨rfl, rfl⟩
  | cons nb rest ih =>
    rw [List.foldl_cons]
    refine ⟨?_, ?_⟩
    · rw [(ih (relaxOne nodeId acc nb)).1, (relaxOne_preserves nodeId acc nb).1]
    · rw [(ih (relaxOne nodeId acc nb)).2, (relaxOne_preserves nodeId acc nb).2]

lemma drainQueue_fresh (visited : List Nat) (q : List (Nat × Nat))
    (e : Nat × Nat) (rest : List (Nat × Nat))
    (h : drainQueue visited q = some (e, rest)) : e.1 ∉ visited := by
  induction q with
  | nil => exact absurd h (by simp [drainQueue])
  | cons hd tl ih =>
    unfold drainQueue at h
    split at h
    · exact ih h
    · rename_i hc
      obtain ⟨rfl, -⟩ := Prod.mk.injEq _ _ _ _ ▸ Option.some.inj h
      simpa using hc

lemma enqueue_split (q : List (Nat × Nat)) (item : Nat × Nat)
    (hq : q.Pairwise (fun a b => a.2 ≤ b.2)) :
    ∃ l1 l2, enqueueByDistance q item = l1 ++ item :: l2 ∧ q = l1 ++ l2
      ∧ (∀ e ∈ l1, e.2 ≤ item.2) ∧ (∀ e ∈ l2, item.2 < e.2) := by
  induction q with
  | nil =>
    exact ⟨[], [], rfl, rfl, by simp, by simp⟩
  | cons e rest ih =>
    have hpw := List.pairwise_cons.mp hq
    unfold enqueueByDistance
    split
    · rename_i hlt
      refine ⟨[], e :: rest, rfl, rfl, by simp, ?_⟩
      intro x hx
      rcases List.mem_cons.mp hx with rfl | hx
      · exact hlt
      · exact lt_of_lt_of_le hlt (hpw.1 x hx)
    · rename_i hge
      obtain ⟨l1, l2, heq, hsplit, h1, h2⟩ := ih hpw.2
      refine ⟨e :: l1, l2, ?_, ?_, ?_, h2⟩
      · rw [List.cons_append, heq]
      · rw [List.cons_append, hsplit]
      · intro x hx
        rcases List.mem_cons.mp hx with rfl | hx
        · omega
        · exact h1 x hx

/-- Claim C5: a Dijkstra `step()` on an unfinished state either settles
exactly one previously unsettled node (leaving `finished` false) or, when
only stale entries remain, discards them all and sets `finished`; and the
linear-scan insert places a new queue item after every existing item of
less-than-or-equal (in particular equal) distance, so first-inserted wins
among equal distances. -/
theorem dijkstra_step_dichotomy_and_stable_enqueue (s : DijkstraState)
    (hs : s.finished = false) (q : List (Nat × Nat)) (item : Nat × Nat)
    (hq : q.Pairwise (fun a b => a.2 ≤ b.2)) :
    ((∃ x, x ∉ s.visited ∧ (stepDijkstra s).1.visited = x :: s.visited
        ∧ (stepDijkstra s).1.finished = false)
      ∨ ((stepDijkstra s).1.visited = s.visited
        ∧ (stepDijkstra s).1.finished = true ∧ (stepDijkstra s).1.queue = []))
    ∧ (∃ l1 l2, enqueueByDistance q item = l1 ++ item :: l2 ∧ q = l1 ++ l2
        ∧ (∀ e ∈ l1, e.2 ≤ item.2) ∧ (∀ e ∈ l2, item.2 < e.2)) := by
  refine ⟨?_, enqueue_split q item hq⟩
  cases hdrain : drainQueue s.visited s.queue with
  | none =>
    right
    simp [stepDijkstra, hdrain]
  | some pr =>
    obtain ⟨node, rest⟩ := pr
    left
    refine ⟨node.1, drainQueue_fresh s.visited s.queue node rest hdrain, ?_, ?_⟩
    · simp only [stepDijkstra, hdrain, relaxNeighbors]
      exact (relax_fold_preserves node.1 _ _).1
    · simp only [stepDijkstra, hdrain, relaxNeighbors]
      rw [(relax_fold_preserves node.1 _ _).2]
      exact hs

/-- Witness for `dijkstra_step_dichotomy_and_stable_enqueue`: the start
state on `g4` is unfinished, and a concrete sorted queue with an
equal-distance insertion. -/
theorem dijkstra_step_dichotomy_witness :
    (startDijkstra g4).finished = false
    ∧ ([((1 : Nat), (3 : Nat)), (2, 5)].Pairwise (fun a b => a.2 ≤ b.2))
    ∧ (((∃ x, x ∉ (startDijkstra g4).visited
          ∧ (stepDijkstra (startDijkstra g4)).1.visited = x :: (startDijkstra g4).visited
          ∧ (stepDijkstra (startDijkstra g4)).1.finished = false)
        ∨ ((stepDijkstra (startDijkstra g4)).1.visited = (startDijkstra g4).visited
          ∧ (stepDijkstra (startDijkstra g4)).1.finished = true
          ∧ (stepDijkstra (startDijkstra g4)).1.queue = []))
      ∧ (∃ l1 l2, enqueueByDistance [((1 : Nat), (3 : Nat)), (2, 5)] (3, 3) = l1 ++ (3, 3) :: l2
          ∧ [((1 : Nat), (3 : Nat)), (2, 5)] = l1 ++ l2
          ∧ (∀ e ∈ l1, e.2 ≤ 3) ∧ (∀ e ∈ l2, 3 < e.2))) :=
  ⟨by decide, by decide,
    dijkstra_step_dichotomy_and_stable_enqueue (startDijkstra g4) (by decide)
      [((1 : Nat), (3 : Nat)), (2, 5)] (3, 3) (by decide)⟩

lemma stableInsert_mem {α : Type} (key : α → Nat) (a x : α) (l : List α) :
    x ∈ stableInsert key a l ↔ x ∈ l ∨ x = a := by
  induction l with
  | nil => simp [stableInsert]
  | cons y ys ih =>
    unfold stableInsert
    split
    · rw [List.mem_cons, ih, List.mem_cons]
      tauto
    · simp only [List.mem_cons]
      tauto

lemma stableSort_mem {α : Type} (key : α → Nat) (x : α) (l : List α) :
    x ∈ stableSort key l ↔ x ∈ l := by
  have haux : ∀ (l : List α) (acc : List α),
      x ∈ l.foldl (fun acc y => stableInsert key y acc) acc ↔ x ∈ acc ∨ x ∈ l := by
    intro l
    induction l with
    | nil => simp
    | cons y ys ih =>
      intro acc
      rw [List.foldl_cons, ih, stableInsert_mem, List.mem_cons]
      tauto
  rw [stableSort, haux]
  simp

lemma rawWeightedNeighbors_mem (edges : List Edge) (u b w : Nat) :
    (b, w) ∈ rawWeightedNeighbors edges u ↔
      ∃ e ∈ edges, (e.src = u ∧ e.dst = b ∧ e.weight = w)
        ∨ (e.dst = u ∧ e.src = b ∧ e.weight = w) := by
  induction edges with
  | nil => simp [rawWeightedNeighbors]
  | cons e es ih =>
    have hstep : rawWeightedNeighbors (e :: es) u
        = (if e.src = u then [(e.dst, e.weight)] else [])
          ++ ((if e.dst = u then [(e.src, e.weight)] else [])
            ++ rawWeightedNeighbors es u) := by
      simp [rawWeightedNeighbors]
    rw [hstep]
    constructor
    · intro hmem
      rcases List.mem_append.mp hmem with hm1 | hm2
      · split at hm1
        · rename_i hsrc
          rw [List.mem_singleton, Prod.mk.injEq] at hm1
          exact ⟨e, List.mem_cons_self _ _, Or.inl ⟨hsrc, hm1.1.symm, hm1.2.symm⟩⟩
        · exact absurd hm1 (List.not_mem_nil _)
      · rcases List.mem_append.mp hm2 with hm3 | hm4
        · split at hm3
          · rename_i hdst
            rw [List.mem_singleton, Prod.mk.injEq] at hm3
            exact ⟨e, List.mem_cons_self _ _, Or.inr ⟨hdst, hm3.1.symm, hm3.2.symm⟩⟩
          · exact absurd hm3 (List.not_mem_nil _)
        · obtain ⟨e1, he1, hor⟩ := ih.mp hm4
          exact ⟨e1, List.mem_cons_of_mem _ he1, hor⟩
    · rintro ⟨e1, he1, hor⟩
      rcases List.mem_cons.mp he1 with rfl | he1
      · rcases hor with ⟨hsrc, hdst, hwt⟩ | ⟨hdst, hsrc, hwt⟩
        · apply List.mem_append_left
          rw [if_pos hsrc, List.mem_singleton, Prod.mk.injEq]
          exact ⟨hdst.symm, hwt.symm⟩
        · apply List.mem_append_right
          apply List.mem_append_left
          rw [if_pos hdst, List.mem_singleton, Prod.mk.injEq]
          exact ⟨hsrc.symm, hwt.symm⟩
      · apply List.mem_append_right
        apply List.mem_append_right
        exact ih.mpr ⟨e1, he1, hor⟩

lemma buildWeightedAdjacency_mem (g : Graph) (u b w : Nat) :
    (b, w) ∈ buildWeightedAdjacency g u ↔
      ∃ e ∈ g.edges, (e.src = u ∧ e.dst = b ∧ e.weight = w)
        ∨ (e.dst = u ∧ e.src = b ∧ e.weight = w) := by
  rw [buildWeightedAdjacency, stableSort_mem, rawWeightedNeighbors_mem]

lemma adjRel_weightedAdjacency (g : Graph) (u b : Nat)
    (h : AdjRel g.edges u b) : ∃ w, (b, w) ∈ buildWeightedAdjacency g u := by
  obtain ⟨e, he, hor⟩ := h
  refine ⟨e.weight, (buildWeightedAdjacency_mem g u b e.weight).mpr ⟨e, he, ?_⟩⟩
  rcases hor with ⟨h1, h2⟩ | ⟨h1, h2⟩
  · exact Or.inl ⟨h1, h2, rfl⟩
  · exact Or.inr ⟨h2, h1, rfl⟩

lemma enqueueEdgeByWeight_mem (q : List Edge) (e x : Edge) :
    x ∈ enqueueEdgeByWeight q e ↔ x ∈ q ∨ x = e := by
  induction q with
  | nil => simp [enqueueEdgeByWeight]
  | cons hd tl ih =>
    unfold enqueueEdgeByWeight
    split
    · simp only [List.mem_cons]
      tauto
    · simp only [List.mem_cons, ih]
      tauto

lemma primEnqueue_mem_of (vis : List Nat) (u : Nat) (q : List Edge)
    (nb : Nat × Nat) (x : Edge) (hx : x ∈ q) : x ∈ primEnqueue vis u q nb := by
  unfold primEnqueue
  split
  · exact hx
  · exact (enqueueEdgeByWeight_mem _ _ _).mpr (Or.inl hx)

lemma foldl_primEnqueue_mem_of (vis : List Nat) (u : Nat) (l : List (Nat × Nat))
    (q : List Edge) (x : Edge) (hx : x ∈ q) :
    x ∈ l.foldl (primEnqueue vis u) q := by
  induction l generalizing q with
  | nil => exact hx
  | cons nb tl ih => exact ih _ (primEnqueue_mem_of vis u q nb x hx)

lemma foldl_primEnqueue_inserted (vis : List Nat) (u : Nat) (l : List (Nat × Nat))
    (q : List Edge) (nb : Nat × Nat) (hnb : nb ∈ l) (hvis : nb.1 ∉ vis) :
    ({ src := u, dst := nb.1, weight := nb.2 } : Edge) ∈ l.foldl (primEnqueue vis u) q := by
  induction l generalizing q with
  | nil => exact absurd hnb (List.not_mem_nil nb)
  | cons hd tl ih =>
    rw [List.foldl_cons]
    rcases List.mem_cons.mp hnb with rfl | hnb
    · apply foldl_primEnqueue_mem_of
      unfold primEnqueue
      rw [if_neg (by simpa using hvis)]
      exact (enqueueEdgeByWeight_mem _ _ _).mpr (Or.inr rfl)
    · exact ih _ hnb

lemma keyInsert_fresh (k : Nat × Nat) (l : List (Nat × Nat)) (h : k ∉ l) :
    keyInsert k l = k :: l := if_neg h

/-- Well-formedness of an input graph: duplicate-free node ids, at least
one node, and every edge endpoint a node id. -/
def GraphWF (g : Graph) : Prop :=
  g.nodes.Nodup ∧ g.nodes ≠ []
    ∧ ∀ e ∈ g.edges, e.src ∈ g.nodes ∧ e.dst ∈ g.nodes

/-- Characterisation of the members of a prim enqueue fold: an element was
already queued, or is one of the inserted candidate edges. -/
lemma foldl_primEnqueue_mem (vis : List Nat) (u : Nat) (l : List (Nat × Nat))
    (q : List Edge) (x : Edge) (hx : x ∈ l.foldl (primEnqueue vis u) q) :
    x ∈ q ∨ ∃ nb ∈ l, x = { src := u, dst := nb.1, weight := nb.2 } := by
  induction l generalizing q with
  | nil => exact Or.inl hx
  | cons nb tl ih =>
    rw [List.foldl_cons] at hx
    rcases ih _ hx with hq | ⟨nb1, hnb1, rfl⟩
    · unfold primEnqueue at hq
      split at hq
      · exact Or.inl hq
      · rcases (enqueueEdgeByWeight_mem _ _ _).mp hq with hmem | heq
        · exact Or.inl hmem
        · exact Or.inr ⟨nb, List.mem_cons_self _ _, heq⟩
    · exact Or.inr ⟨nb1, List.mem_cons_of_mem _ hnb1, rfl⟩

lemma buildWeightedAdjacency_dst (g : Graph) (wf : GraphWF g) (u : Nat)
    (nb : Nat × Nat) (h : nb ∈ buildWeightedAdjacency g u) : nb.1 ∈ g.nodes := by
  obtain ⟨b, w⟩ := nb
  obtain ⟨e, he, hor⟩ := (buildWeightedAdjacency_mem g u b w).mp h
  rcases hor with ⟨-, h2, -⟩ | ⟨-, h2, -⟩
  · exact h2 ▸ (wf.2.2 e he).2
  · exact h2 ▸ (wf.2.2 e he).1

/-- The Prim step invariant, relative to the input graph `g`. -/
structure PrimInv (g : Graph) (s : PrimState) : Prop where
  graphEq : s.graph = g
  adjEq : s.adjacency = buildWeightedAdjacency g
  visSub : ∀ v ∈ s.visited, v ∈ g.nodes
  visNodup : s.visited.Nodup
  startIn : g.nodes.headD 0 ∈ s.visited
  mstCard : s.edgesMST.length + 1 = s.visited.length
  mstEnds : ∀ k ∈ s.edgesMST, k.1 ∈ s.visited ∧ k.2 ∈ s.visited
  queueSrc : ∀ e ∈ s.queue, e.src ∈ s.visited
  queueDst : ∀ e ∈ s.queue, e.dst ∈ g.nodes
  boundary : ∀ a b, AdjRel g.edges a b → a ∈ s.visited → b ∉ s.visited →
      ∃ e ∈ s.queue, e.dst = b
  finQueue : s.finished = true → s.queue = []

lemma stepPrim_finish (s : PrimState) (hq : s.queue = []) :
    (stepPrim s).1 = { s with finished := true } := by
  simp [stepPrim, hq]

lemma stepPrim_discard (s : PrimState) (edge : Edge) (rest : List Edge)
    (hq : s.queue = edge :: rest) (hv : edge.dst ∈ s.visited) :
    (stepPrim s).1 = { s with queue := rest } := by
  simp [stepPrim, hq, hv]

lemma stepPrim_add (s : PrimState) (edge : Edge) (rest : List Edge)
    (hq : s.queue = edge :: rest) (hv : edge.dst ∉ s.visited) :
    (stepPrim s).1 = { s with
      visited := edge.dst :: s.visited
      edgesMST := keyInsert (canonicalEdgeKey edge.src edge.dst) s.edgesMST
      queue := (s.adjacency edge.dst).foldl
        (primEnqueue (edge.dst :: s.visited) edge.dst) rest } := by
  simp [stepPrim, hq, hv]

lemma startPrim_visited (g : Graph) : (startPrim g).visited = [g.nodes.headD 0] := rfl

lemma startPrim_queue (g : Graph) : (startPrim g).queue
    = (buildWeightedAdjacency g (g.nodes.headD 0)).foldl
        (primEnqueue [] (g.nodes.headD 0)) [] := rfl

lemma primInv_start (g : Graph) (wf : GraphWF g) : PrimInv g (startPrim g) := by
  have hstart : g.nodes.headD 0 ∈ g.nodes := by
    cases hn : g.nodes with
    | nil => exact absurd hn wf.2.1
    | cons a t => simp [hn]
  refine ⟨rfl, rfl, ?_, List.nodup_singleton _, List.mem_singleton_self _, rfl,
    ?_, ?_, ?_, ?_, ?_⟩
  · intro v hv
    rw [startPrim_visited, List.mem_singleton] at hv
    exact hv ▸ hstart
  · intro k hk
    exact absurd hk (List.not_mem_nil k)
  · intro e he
    rcases foldl_primEnqueue_mem _ _ _ _ e he with hmem | ⟨nb, -, rfl⟩
    · exact absurd hmem (List.not_mem_nil e)
    · exact List.mem_singleton_self _
  · intro e he
    rcases foldl_primEnqueue_mem _ _ _ _ e he with hmem | ⟨nb, hnb, rfl⟩
    · exact absurd hmem (List.not_mem_nil e)
    · exact buildWeightedAdjacency_dst g wf _ nb hnb
  · intro a b hab ha hb
    rw [startPrim_visited, List.mem_singleton] at ha
    subst ha
    obtain ⟨w, hw⟩ := adjRel_weightedAdjacency g _ b hab
    refine ⟨{ src := g.nodes.headD 0, dst := b, weight := w }, ?_, rfl⟩
    rw [startPrim_queue]
    exact foldl_primEnqueue_inserted [] _ _ [] (b, w) hw (List.not_mem_nil b)
  · intro hfin
    exact absurd hfin (by simp [startPrim])

lemma primInv_step (g : Graph) (wf : GraphWF g) (s : PrimState)
    (h : PrimInv g s) : PrimInv g (stepPrim s).1 := by
  cases hq : s.queue with
  | nil =>
    rw [stepPrim_finish s hq]
    exact ⟨h.graphEq, h.adjEq, h.visSub, h.visNodup, h.startIn, h.mstCard,
      h.mstEnds, fun e he => h.queueSrc e he, fun e he => h.queueDst e he,
      h.boundary, fun _ => hq⟩
  | cons edge rest =>
    have hfin : s.finished = false := by
      cases hfin : s.finished
      · rfl
      · rw [h.finQueue hfin] at hq
        exact List.noConfusion hq
    have hedge : edge ∈ s.queue := by
      rw [hq]
      exact List.mem_cons_self _ _
    by_cases hv : edge.dst ∈ s.visited
    · rw [stepPrim_discard s edge rest hq hv]
      refine ⟨h.graphEq, h.adjEq, h.visSub, h.visNodup, h.startIn, h.mstCard,
        h.mstEnds, ?_, ?_, ?_, ?_⟩
      · intro e he
        exact h.queueSrc e (by rw [hq]; exact List.mem_cons_of_mem _ he)
      · intro e he
        exact h.queueDst e (by rw [hq]; exact List.mem_cons_of_mem _ he)
      · intro a b hab ha hb
        obtain ⟨e0, he0, hdst⟩ := h.boundary a b hab ha hb
        rw [hq] at he0
        rcases List.mem_cons.mp he0 with rfl | he0
        · exact absurd (hdst ▸ hv) hb
        · exact ⟨e0, he0, hdst⟩
      · intro hfin2
        rw [hfin] at hfin2
        exact Bool.noConfusion hfin2
    · rw [stepPrim_add s edge rest hq hv]
      have hkeyfresh : canonicalEdgeKey edge.src edge.dst ∉ s.edgesMST := by
        intro hk
        have hends := h.mstEnds _ hk
        rcases le_total edge.src edge.dst with hle | hle
        · have : (canonicalEdgeKey edge.src edge.dst).2 = edge.dst := by
            simp only [canonicalEdgeKey]
            omega
          exact hv (this ▸ hends.2)
        · have : (canonicalEdgeKey edge.src edge.dst).1 = edge.dst := by
            simp only [canonicalEdgeKey]
            omega
          exact hv (this ▸ hends.1)
      refine ⟨h.graphEq, h.adjEq, ?_, ?_, ?_, ?_, ?_, ?_, ?_, ?_, ?_⟩
      · intro v hvv
        rcases List.mem_cons.mp hvv with rfl | hvv
        · exact h.queueDst edge hedge
        · exact h.visSub v hvv
      · exact List.nodup_cons.mpr ⟨hv, h.visNodup⟩
      · exact List.mem_cons_of_mem _ h.startIn
      · rw [keyInsert_fresh _ _ hkeyfresh, List.length_cons, List.length_cons,
          h.mstCard]
      · intro k hk
        rw [keyInsert_fresh _ _ hkeyfresh] at hk
        rcases List.mem_cons.mp hk with rfl | hk
        · have hsrc : edge.src ∈ s.visited := h.queueSrc edge hedge
          rcases le_total edge.src edge.dst with hle | hle
          · have h1 : (canonicalEdgeKey edge.src edge.dst).1 = edge.src := by
              simp only [canonicalEdgeKey]
              omega
            have h2 : (canonicalEdgeKey edge.src edge.dst).2 = edge.dst := by
              simp only [canonicalEdgeKey]
              omega
            rw [h1, h2]
            exact ⟨List.mem_cons_of_mem _ hsrc, List.mem_cons_self _ _⟩
          · have h1 : (canonicalEdgeKey edge.src edge.dst).1 = edge.dst := by
              simp only [canonicalEdgeKey]
              omega
            have h2 : (canonicalEdgeKey edge.src edge.dst).2 = edge.src := by
              simp only [canonicalEdgeKey]
              omega
            rw [h1, h2]
            exact ⟨List.mem_cons_self _ _, List.mem_cons_of_mem _ hsrc⟩
        · obtain ⟨hk1, hk2⟩ := h.mstEnds k hk
          exact ⟨List.mem_cons_of_mem _ hk1, List.mem_cons_of_mem _ hk2⟩
      · intro e he
        rcases foldl_primEnqueue_mem _ _ _ _ e he with hmem | ⟨nb, -, rfl⟩
        · exact List.mem_cons_of_mem _
            (h.queueSrc e (by rw [hq]; exact List.mem_cons_of_mem _ hmem))
        · exact List.mem_cons_self _ _
      · intro e he
        rcases foldl_primEnqueue_mem _ _ _ _ e he with hmem | ⟨nb, hnb, rfl⟩
        · exact h.queueDst e (by rw [hq]; exact List.mem_cons_of_mem _ hmem)
        · exact buildWeightedAdjacency_dst g wf _ nb (h.adjEq ▸ hnb)
      · intro a b hab ha hb
        have hbold : b ∉ s.visited := fun hmem => hb (List.mem_cons_of_mem _ hmem)
        rcases List.mem_cons.mp ha with rfl | ha
        · obtain ⟨w, hw⟩ := adjRel_weightedAdjacency g _ b hab
          refine ⟨{ src := edge.dst, dst := b, weight := w }, ?_, rfl⟩
          exact foldl_primEnqueue_inserted _ _ _ rest (b, w) (h.adjEq ▸ hw) hb
        · obtain ⟨e0, he0, hdst⟩ := h.boundary a b hab ha hbold
          rw [hq] at he0
          rcases List.mem_cons.mp he0 with rfl | he0
          · exact absurd (List.mem_cons_self _ _) (hdst ▸ hb)
          · exact ⟨e0, foldl_primEnqueue_mem_of _ _ _ _ e0 he0, hdst⟩
      · intro hfin2
        rw [hfin] at hfin2
        exact Bool.noConfusion hfin2

lemma primInv_iter (g : Graph) (wf : GraphWF g) (k : Nat) :
    PrimInv g (primIter g k) := by
  induction k with
  | zero => exact primInv_start g wf
  | succ k ih => exact primInv_step g wf _ ih

/-- A reachability chain from inside a vertex set to outside it must cross
the boundary somewhere. -/
lemma reach_crossing (edges : List Edge) (V : List Nat) (u v : Nat)
    (h : Reach edges u v) (hu : u ∈ V) (hv : v ∉ V) :
    ∃ a b, AdjRel edges a b ∧ a ∈ V ∧ b ∉ V := by
  revert hu
  induction h using Relation.ReflTransGen.head_induction_on with
  | refl => exact fun hu => absurd hu hv
  | head hstep hreach ih =>
    intro hu
    rename_i x y
    by_cases hy : y ∈ V
    · exact ih hy
    · exact ⟨x, y, hstep, hu, hy⟩

lemma prim_complete (g : Graph) (wf : GraphWF g)
    (hconn : ∀ x ∈ g.nodes, Reach g.edges (g.nodes.headD 0) x) (k : Nat)
    (hfin : (primIter g k).finished = true) :
    (primIter g k).edgesMST.length = g.nodes.length - 1 := by
  have h := primInv_iter g wf k
  have hq := h.finQueue hfin
  have hsup : ∀ x ∈ g.nodes, x ∈ (primIter g k).visited := by
    intro x hx
    by_contra hxv
    obtain ⟨a, b, hab, ha, hb⟩ :=
      reach_crossing g.edges (primIter g k).visited _ _ (hconn x hx) h.startIn hxv
    obtain ⟨e, he, -⟩ := h.boundary a b hab ha hb
    rw [hq] at he
    exact absurd he (List.not_mem_nil e)
  have hlen1 : (primIter g k).visited.length ≤ g.nodes.length :=
    (List.subperm_of_subset h.visNodup (fun x hx => h.visSub x hx)).length_le
  have hlen2 : g.nodes.length ≤ (primIter g k).visited.length :=
    (List.subperm_of_subset wf.1 (fun x hx => hsup x hx)).length_le
  have hcard := h.mstCard
  omega

/-- One parent-pointer step. -/
def PStep (p : Nat → Nat) (a b : Nat) : Prop := p a = b

/-- Transitive closure of parent pointers. -/
def PReach (p : Nat → Nat) : Nat → Nat → Prop := Relation.ReflTransGen (PStep p)

/-- `r` is the root of `x`: reachable along parent pointers and a fixed
point. -/
def IsRoot (p : Nat → Nat) (x r : Nat) : Prop := PReach p x r ∧ p r = r

/-- `a` and `b` lie in the same union-find class. -/
def SameRoot (p : Nat → Nat) (a b : Nat) : Prop :=
  ∃ r, IsRoot p a r ∧ IsRoot p b r

/-- The acyclicity invariant of the parent map: rank strictly increases
along every non-trivial parent pointer. -/
def OkChain (p rank : Nat → Nat) : Prop :=
  ∀ x, p x ≠ x → rank x < rank (p x)

lemma preach_fix (p : Nat → Nat) (r z : Nat) (hr : p r = r)
    (h : PReach p r z) : z = r := by
  revert hr
  induction h using Relation.ReflTransGen.head_induction_on with
  | refl => exact fun _ => rfl
  | head hstep hreach ih =>
    rename_i a c
    intro ha
    have hca : c = a := by rw [← hstep]; exact ha
    subst hca
    exact ih ha

lemma isRoot_unique (p : Nat → Nat) (x r1 r2 : Nat) (h1 : IsRoot p x r1)
    (h2 : IsRoot p x r2) : r1 = r2 := by
  obtain ⟨hc1, hf1⟩ := h1
  obtain ⟨hc2, hf2⟩ := h2
  revert hc2
  induction hc1 using Relation.ReflTransGen.head_induction_on with
  | refl => exact fun hc2 => (preach_fix p r1 r2 hf1 hc2).symm
  | head hstep hreach ih =>
    rename_i a c
    intro hc2
    rcases Relation.ReflTransGen.cases_head hc2 with heq | ⟨c2, hstep2, hreach2⟩
    · have hpa : p a = a := by rw [heq]; exact heq ▸ hf2
      have hca : c = a := by rw [← hstep]; exact hpa
      subst hca
      exact ih (heq ▸ Relation.ReflTransGen.refl)
    · have hcc : c2 = c := by rw [← hstep2, ← hstep]
      subst hcc
      exact ih hreach2

lemma rank_lt_root (p rank : Nat → Nat) (ok : OkChain p rank) (x r : Nat)
    (h : PReach p x r) (hxr : x ≠ r) (hr : p r = r) : rank x < rank r := by
  revert hxr
  induction h using Relation.ReflTransGen.head_induction_on with
  | refl => exact fun hxr => absurd rfl hxr
  | head hstep hreach ih =>
    rename_i a c
    intro hxr
    by_cases hac : p a = a
    · have hca : c = a := by rw [← hstep]; exact hac
      subst hca
      exact ih hxr
    · have hlt : rank a < rank c := by rw [← hstep]; exact ok a hac
      by_cases hcr : c = r
      · rw [hcr] at hlt
        exact hlt
      · exact lt_trans hlt (ih hcr)

lemma root_exists_aux (p rank : Nat → Nat) (ok : OkChain p rank) (B : Nat)
    (hB : ∀ y, rank y < B) :
    ∀ n x, B - rank x ≤ n → ∃ r, IsRoot p x r := by
  intro n
  induction n with
  | zero =>
    intro x hx
    exact absurd hx (by have := hB x; omega)
  | succ n ih =>
    intro x hx
    by_cases hpx : p x = x
    · exact ⟨x, Relation.ReflTransGen.refl, hpx⟩
    · have hlt := ok x hpx
      obtain ⟨r, hr1, hr2⟩ := ih (p x) (by have := hB x; omega)
      exact ⟨r, Relation.ReflTransGen.head rfl hr1, hr2⟩

lemma root_exists (p rank : Nat → Nat) (ok : OkChain p rank) (B : Nat)
    (hB : ∀ y, rank y < B) (x : Nat) : ∃ r, IsRoot p x r :=
  root_exists_aux p rank ok B hB (B - rank x) x (Nat.le_refl _)

lemma preach_closure (p : Nat → Nat) (ids : List Nat)
    (hcl : ∀ z ∈ ids, p z ∈ ids) (a b : Nat) (h : PReach p a b) (ha : a ∈ ids) :
    b ∈ ids := by
  induction h with
  | refl => exact ha
  | tail hreach hstep ih =>
    rw [← hstep]
    exact hcl _ ih

lemma sameRoot_symm (p : Nat → Nat) (a b : Nat) (h : SameRoot p a b) :
    SameRoot p b a := by
  obtain ⟨r, h1, h2⟩ := h
  exact ⟨r, h2, h1⟩

lemma sameRoot_trans (p : Nat → Nat) (a b c : Nat) (h1 : SameRoot p a b)
    (h2 : SameRoot p b c) : SameRoot p a c := by
  obtain ⟨r1, ha, hb⟩ := h1
  obtain ⟨r2, hb2, hc⟩ := h2
  rw [isRoot_unique p b r2 r1 hb2 hb] at hc
  exact ⟨r1, ha, hc⟩

/-- Full behaviour of fuelled `findRoot`: with enough fuel it returns the
root of `x`, and the compressed map agrees with `p` except on nodes of the
traversed chain, which now point directly at the root. -/
lemma findRootAux_spec (p rank : Nat → Nat) (ok : OkChain p rank) (B : Nat)
    (hB : ∀ y, rank y < B) :
    ∀ fuel x, B - rank x ≤ fuel →
      IsRoot p x (findRootAux fuel p x).1
      ∧ ∀ y, (findRootAux fuel p x).2 y = p y
          ∨ ((findRootAux fuel p x).2 y = (findRootAux fuel p x).1
              ∧ PReach p y (findRootAux fuel p x).1
              ∧ y ≠ (findRootAux fuel p x).1 ∧ PReach p x y) := by
  intro fuel
  induction fuel with
  | zero =>
    intro x hx
    exact absurd hx (by have := hB x; omega)
  | succ fuel ih =>
    intro x hx
    by_cases hpx : p x = x
    · have he : findRootAux (fuel + 1) p x = (x, p) := by
        simp [findRootAux, hpx]
      rw [he]
      exact ⟨⟨Relation.ReflTransGen.refl, hpx⟩, fun y => Or.inl rfl⟩
    · have hrec := ih (p x) (by have h1 := ok x hpx; have h2 := hB x; omega)
      have he : findRootAux (fuel + 1) p x
          = ((findRootAux fuel p (p x)).1,
             fun y => if y = x then (findRootAux fuel p (p x)).1
                      else (findRootAux fuel p (p x)).2 y) := by
        simp [findRootAux, hpx]
      rw [he]
      obtain ⟨⟨hchain, hfix⟩, hmap⟩ := hrec
      have hxr : x ≠ (findRootAux fuel p (p x)).1 := by
        intro hcontra
        rw [← hcontra] at hfix
        exact hpx hfix
      refine ⟨⟨Relation.ReflTransGen.head rfl hchain, hfix⟩, ?_⟩
      intro y
      by_cases hyx : y = x
      · subst hyx
        right
        exact ⟨by simp, Relation.ReflTransGen.head rfl hchain, hxr,
          Relation.ReflTransGen.refl⟩
      · rcases hmap y with hy | ⟨hy1, hy2, hy3, hy4⟩
        · left
          simpa [hyx] using hy
        · right
          exact ⟨by simpa [hyx] using hy1, hy2, hy3,
            Relation.ReflTransGen.head rfl hy4⟩

/-- Consequences of path compression: the chain invariant survives, the
set of roots is unchanged, every node keeps the same root, and the map
stays inside the node ids and the identity off them. -/
lemma findRootAux_props (p rank : Nat → Nat) (ok : OkChain p rank)
    (B fuel x : Nat) (hB : ∀ y, rank y < B) (hfuel : B - rank x ≤ fuel) :
    IsRoot p x (findRootAux fuel p x).1
    ∧ OkChain (findRootAux fuel p x).2 rank
    ∧ (∀ y, (findRootAux fuel p x).2 y = y ↔ p y = y)
    ∧ (∀ y s, IsRoot (findRootAux fuel p x).2 y s ↔ IsRoot p y s)
    ∧ (∀ ids : List Nat, (∀ z ∈ ids, p z ∈ ids) → x ∈ ids →
        (∀ z ∈ ids, (findRootAux fuel p x).2 z ∈ ids)
        ∧ (∀ z, z ∉ ids → (findRootAux fuel p x).2 z = p z)) := by
  obtain ⟨hroot, hmap⟩ := findRootAux_spec p rank ok B hB fuel x hfuel
  have hok2 : OkChain (findRootAux fuel p x).2 rank := by
    intro y hy
    rcases hmap y with h | ⟨h1, h2, h3, -⟩
    · rw [h] at hy ⊢
      exact ok y hy
    · rw [h1]
      exact rank_lt_root p rank ok y _ h2 h3 hroot.2
  have hroots : ∀ y, (findRootAux fuel p x).2 y = y ↔ p y = y := by
    intro y
    rcases hmap y with h | ⟨h1, h2, h3, -⟩
    · rw [h]
    · constructor
      · intro h4
        rw [h1] at h4
        exact absurd h4.symm h3
      · intro h4
        exact absurd (preach_fix p y _ h4 h2) (fun heq => h3 heq.symm)
  have hlift : ∀ y z, PReach (findRootAux fuel p x).2 y z → PReach p y z := by
    intro y z h
    induction h with
    | refl => exact Relation.ReflTransGen.refl
    | tail hreach hstep ih =>
      rename_i b c
      rcases hmap b with hb | ⟨hb1, hb2, -, -⟩
      · refine Relation.ReflTransGen.tail ih ?_
        rw [PStep, ← hb]
        exact hstep
      · have hc : c = (findRootAux fuel p x).1 := by
          rw [← hstep]
          exact hb1
        subst hc
        exact Relation.ReflTransGen.trans ih hb2
  have hiff : ∀ y s, IsRoot (findRootAux fuel p x).2 y s ↔ IsRoot p y s := by
    intro y s
    constructor
    · rintro ⟨hc, hf⟩
      exact ⟨hlift y s hc, (hroots s).mp hf⟩
    · rintro ⟨hc, hf⟩
      obtain ⟨s2, hs2⟩ := root_exists _ rank hok2 B hB y
      have hps2 : IsRoot p y s2 := ⟨hlift y s2 hs2.1, (hroots s2).mp hs2.2⟩
      rw [isRoot_unique p y s s2 ⟨hc, hf⟩ hps2]
      exact hs2
  refine ⟨hroot, hok2, hroots, hiff, ?_⟩
  intro ids hcl hx
  have hrootin : (findRootAux fuel p x).1 ∈ ids :=
    preach_closure p ids hcl x _ hroot.1 hx
  constructor
  · intro z hz
    rcases hmap z with h | ⟨h1, -, -, -⟩
    · rw [h]
      exact hcl z hz
    · rw [h1]
      exact hrootin
  · intro z hz
    rcases hmap z with h | ⟨-, -, -, h4⟩
    · exact h
    · exact absurd (preach_closure p ids hcl x z h4 hx) hz

/-- Attaching root `l` under root `w` moves every node of `l`'s class to
`w`'s class and leaves every other class untouched. -/
lemma attach_props (q : Nat → Nat) (l w : Nat) (hl : q l = l) (hw : q w = w)
    (hlw : l ≠ w) :
    (∀ y s, IsRoot q y s →
      IsRoot (fun z => if z = l then w else q z) y (if s = l then w else s))
    ∧ (∀ y, (fun z => if z = l then w else q z) y = y ↔ (q y = y ∧ y ≠ l)) := by
  have htrans1 : ∀ y s, PReach q y s → s ≠ l →
      PReach (fun z => if z = l then w else q z) y s := by
    intro y s h hs
    induction h using Relation.ReflTransGen.head_induction_on with
    | refl => exact Relation.ReflTransGen.refl
    | head hstep hreach ih =>
      rename_i a c
      have hal : a ≠ l := by
        intro heq
        have hqa : q a = a := by rw [heq]; exact hl
        have hc : c = a := by rw [← hstep]; exact hqa
        rw [hc] at hreach
        exact hs ((preach_fix q a s hqa hreach).trans heq)
      refine Relation.ReflTransGen.head ?_ ih
      show (if a = l then w else q a) = c
      rw [if_neg hal]
      exact hstep
  have htrans2 : ∀ y, PReach q y l →
      PReach (fun z => if z = l then w else q z) y w := by
    intro y h
    induction h using Relation.ReflTransGen.head_induction_on with
    | refl =>
      refine Relation.ReflTransGen.single ?_
      show (if l = l then w else q l) = w
      rw [if_pos rfl]
    | head hstep hreach ih =>
      rename_i a c
      by_cases hal : a = l
      · refine Relation.ReflTransGen.single ?_
        show (if a = l then w else q a) = w
        rw [if_pos hal]
      · refine Relation.ReflTransGen.head ?_ ih
        show (if a = l then w else q a) = c
        rw [if_neg hal]
        exact hstep
  constructor
  · rintro y s ⟨hc, hf⟩
    by_cases hsl : s = l
    · subst hsl
      rw [if_pos rfl]
      refine ⟨htrans2 y hc, ?_⟩
      show (if w = s then w else q w) = w
      rw [if_neg (Ne.symm hlw)]
      exact hw
    · rw [if_neg hsl]
      refine ⟨htrans1 y s hc hsl, ?_⟩
      show (if s = l then w else q s) = s
      rw [if_neg hsl]
      exact hf
  · intro y
    by_cases hy : y = l
    · subst hy
      show (if y = y then w else q y) = y ↔ _
      rw [if_pos rfl]
      simp [Ne.symm hlw]
    · show (if y = l then w else q y) = y ↔ _
      rw [if_neg hy]
      simp [hy]

/-- The roots of the union-find structure among the node ids. -/
def rootsOf (p : Nat → Nat) (ids : List Nat) : List Nat :=
  ids.filter (fun y => p y == y)

lemma rootsOf_congr (p p2 : Nat → Nat) (ids : List Nat)
    (h : ∀ y ∈ ids, (p2 y = y ↔ p y = y)) : rootsOf p2 ids = rootsOf p ids := by
  apply List.filter_congr
  intro y hy
  by_cases hpy : p y = y
  · simp [hpy, (h y hy).mpr hpy]
  · have h2 : ¬ p2 y = y := fun hc => hpy ((h y hy).mp hc)
    simp [hpy, h2]

/-- Making exactly one root (`l`) into a non-root drops the root count by
one. -/
lemma rootsOf_length_drop (ids : List Nat) (hnd : ids.Nodup) (p p2 : Nat → Nat)
    (l : Nat) (hl : l ∈ ids) (hpl : p l = l)
    (hiff : ∀ y, p2 y = y ↔ (p y = y ∧ y ≠ l)) :
    (rootsOf p2 ids).length + 1 = (rootsOf p ids).length := by
  induction ids with
  | nil => exact absurd hl (List.not_mem_nil l)
  | cons x t ih =>
    have hnd2 := List.nodup_cons.mp hnd
    by_cases hx : x = l
    · subst hx
      have hfx : (p x == x) = true := by simp [hpl]
      have hfx2 : (p2 x == x) = false := by
        have : ¬ p2 x = x := by
          intro hc
          exact ((hiff x).mp hc).2 rfl
        simp [this]
      have hcongr : t.filter (fun y => p2 y == y) = t.filter (fun y => p y == y) := by
        apply List.filter_congr
        intro y hy
        have hyl : y ≠ x := fun heq => hnd2.1 (heq ▸ hy)
        by_cases hpy : p y = y
        · simp [hpy, (hiff y).mpr ⟨hpy, hyl⟩]
        · have h2 : ¬ p2 y = y := fun hc => hpy ((hiff y).mp hc).1
          simp [hpy, h2]
      rw [rootsOf, rootsOf, List.filter_cons, List.filter_cons, hfx, hfx2]
      simp [hcongr]
    · have hmem : l ∈ t := by
        rcases List.mem_cons.mp hl with heq | hmem
        · exact absurd heq.symm hx
        · exact hmem
      have hbx : (p2 x == x) = (p x == x) := by
        by_cases hpx : p x = x
        · simp [hpx, (hiff x).mpr ⟨hpx, hx⟩]
        · have h2 : ¬ p2 x = x := fun hc => hpx ((hiff x).mp hc).1
          simp [hpx, h2]
      have hrec := ih hnd2.2 hmem
      rw [rootsOf, rootsOf, List.filter_cons, List.filter_cons, hbx]
      rw [rootsOf, rootsOf] at hrec
      cases hpq : (p x == x)
      · simpa using hrec
      · simp only [if_pos, List.length_cons]
        simp
        omega

/-- `unionSets` written out with the two `findRoot` calls exposed. -/
lemma unionSets_eq (fuel a b : Nat) (p rank : Nat → Nat) :
    unionSets fuel a b p rank =
      (if (findRootAux fuel p a).1 = (findRootAux fuel (findRootAux fuel p a).2 b).1 then
        (false, (findRootAux fuel (findRootAux fuel p a).2 b).2, rank)
      else if rank (findRootAux fuel p a).1
          < rank (findRootAux fuel (findRootAux fuel p a).2 b).1 then
        (true,
         fun y => if y = (findRootAux fuel p a).1
                  then (findRootAux fuel (findRootAux fuel p a).2 b).1
                  else (findRootAux fuel (findRootAux fuel p a).2 b).2 y,
         rank)
      else if rank (findRootAux fuel (findRootAux fuel p a).2 b).1
          < rank (findRootAux fuel p a).1 then
        (true,
         fun y => if y = (findRootAux fuel (findRootAux fuel p a).2 b).1
                  then (findRootAux fuel p a).1
                  else (findRootAux fuel (findRootAux fuel p a).2 b).2 y,
         rank)
      else
        (true,
         fun y => if y = (findRootAux fuel (findRootAux fuel p a).2 b).1
                  then (findRootAux fuel p a).1
                  else (findRootAux fuel (findRootAux fuel p a).2 b).2 y,
         fun y => if y = (findRootAux fuel p a).1
                  then rank (findRootAux fuel p a).1 + 1
                  else rank y)) := rfl

/-- Consequences shared by the three successful attach branches of
`unionSets`, stated for the doubly-compressed map `q2` and the final map
that redirects the losing root `l` to the winning root `w`. -/
lemma union_branch_common (p q2 : Nat → Nat) (a b w l : Nat) (ids : List Nat)
    (iff2 : ∀ y s, IsRoot q2 y s ↔ IsRoot p y s)
    (roots2 : ∀ y, q2 y = y ↔ p y = y)
    (cl2 : ∀ z ∈ ids, q2 z ∈ ids) (off2 : ∀ z, z ∉ ids → q2 z = p z)
    (hlw : l ≠ w) (hpw : p w = w) (hpl : p l = l)
    (hwin : w ∈ ids) (hlin : l ∈ ids)
    (hab : (IsRoot p a w ∧ IsRoot p b l) ∨ (IsRoot p a l ∧ IsRoot p b w)) :
    ¬ SameRoot p a b
    ∧ SameRoot (fun y => if y = l then w else q2 y) a b
    ∧ (∀ y s, IsRoot p y s →
        IsRoot (fun y => if y = l then w else q2 y) y (if s = l then w else s))
    ∧ (∀ y, (fun y => if y = l then w else q2 y) y = y ↔ (p y = y ∧ y ≠ l))
    ∧ (∀ z ∈ ids, (fun y => if y = l then w else q2 y) z ∈ ids)
    ∧ (∀ z, z ∉ ids → (fun y => if y = l then w else q2 y) z = p z) := by
  have hq2w : q2 w = w := (roots2 w).mpr hpw
  have hq2l : q2 l = l := (roots2 l).mpr hpl
  have attach := attach_props q2 l w hq2l hq2w hlw
  have htransfer : ∀ y s, IsRoot p y s →
      IsRoot (fun y => if y = l then w else q2 y) y (if s = l then w else s) :=
    fun y s hy => attach.1 y s ((iff2 y s).mpr hy)
  refine ⟨?_, ?_, htransfer, ?_, ?_, ?_⟩
  · rintro ⟨r, h1, h2⟩
    rcases hab with ⟨haw, hbl⟩ | ⟨hal, hbw⟩
    · rw [isRoot_unique p a r w h1 haw] at h2
      exact hlw (isRoot_unique p b w l h2 hbl).symm
    · rw [isRoot_unique p a r l h1 hal] at h2
      exact hlw (isRoot_unique p b l w h2 hbw)
  · rcases hab with ⟨haw, hbl⟩ | ⟨hal, hbw⟩
    · refine ⟨w, ?_, ?_⟩
      · have ht := htransfer a w haw
        rwa [if_neg (Ne.symm hlw)] at ht
      · have ht := htransfer b l hbl
        rwa [if_pos rfl] at ht
    · refine ⟨w, ?_, ?_⟩
      · have ht := htransfer a l hal
        rwa [if_pos rfl] at ht
      · have ht := htransfer b w hbw
        rwa [if_neg (Ne.symm hlw)] at ht
  · intro y
    rw [attach.2 y, roots2 y]
  · intro z hz
    show (if z = l then w else q2 z) ∈ ids
    by_cases hzl : z = l
    · rw [if_pos hzl]
      exact hwin
    · rw [if_neg hzl]
      exact cl2 z hz
  · intro z hz
    show (if z = l then w else q2 z) = p z
    have hzl : z ≠ l := fun heq => hz (by rw [heq]; exact hlin)
    rw [if_neg hzl, off2 z hz]

/-- The chain invariant survives attaching `l` under a strictly
higher-ranked `w`. -/
lemma attach_okChain (q2 rank : Nat → Nat) (l w : Nat) (ok2 : OkChain q2 rank)
    (hlt : rank l < rank w) :
    OkChain (fun y => if y = l then w else q2 y) rank := by
  intro y hy
  show rank y < rank (if y = l then w else q2 y)
  by_cases hy2 : y = l
  · rw [if_pos hy2, hy2]
    exact hlt
  · rw [if_neg hy2]
    apply ok2 y
    intro hq
    apply hy
    show (if y = l then w else q2 y) = y
    rw [if_neg hy2]
    exact hq

/-- Full behaviour of `unionSets`: on failure the classes are untouched
and the endpoints were already together; on success the two distinct
classes merge, the chain invariant survives (with at most one rank bump),
and the map stays inside the ids. -/
lemma unionSets_spec (p rank : Nat → Nat) (a b fuel B : Nat) (ids : List Nat)
    (ok : OkChain p rank) (hB : ∀ y, rank y < B) (hfuel : B ≤ fuel)
    (hcl : ∀ z ∈ ids, p z ∈ ids) (ha : a ∈ ids) (hb : b ∈ ids) :
    ((unionSets fuel a b p rank).1 = false →
      ((unionSets fuel a b p rank).2.2 = rank
        ∧ OkChain (unionSets fuel a b p rank).2.1 rank
        ∧ (∀ y, (unionSets fuel a b p rank).2.1 y = y ↔ p y = y)
        ∧ (∀ y s, IsRoot (unionSets fuel a b p rank).2.1 y s ↔ IsRoot p y s)
        ∧ SameRoot p a b
        ∧ (∀ z ∈ ids, (unionSets fuel a b p rank).2.1 z ∈ ids)
        ∧ (∀ z, z ∉ ids → (unionSets fuel a b p rank).2.1 z = p z)))
    ∧ ((unionSets fuel a b p rank).1 = true →
      ∃ w l, ¬ SameRoot p a b
        ∧ SameRoot (unionSets fuel a b p rank).2.1 a b
        ∧ OkChain (unionSets fuel a b p rank).2.1 (unionSets fuel a b p rank).2.2
        ∧ (∀ y, (unionSets fuel a b p rank).2.2 y ≤ rank y + 1)
        ∧ (∀ y s, IsRoot p y s →
            IsRoot (unionSets fuel a b p rank).2.1 y (if s = l then w else s))
        ∧ l ∈ ids ∧ p l = l
        ∧ (∀ y, (unionSets fuel a b p rank).2.1 y = y ↔ (p y = y ∧ y ≠ l))
        ∧ (∀ z ∈ ids, (unionSets fuel a b p rank).2.1 z ∈ ids)
        ∧ (∀ z, z ∉ ids → (unionSets fuel a b p rank).2.1 z = p z)) := by
  obtain ⟨hra, ok1, roots1, iff1, hids1⟩ :=
    findRootAux_props p rank ok B fuel a hB (by omega)
  obtain ⟨cl1, off1⟩ := hids1 ids hcl ha
  obtain ⟨hrb1, ok2, roots2a, iff2a, hids2⟩ :=
    findRootAux_props (findRootAux fuel p a).2 rank ok1 B fuel b hB (by omega)
  obtain ⟨cl2a, off2a⟩ := hids2 ids cl1 hb
  rw [unionSets_eq]
  set q1 := (findRootAux fuel p a).2 with hq1def
  set rA := (findRootAux fuel p a).1 with hrAdef
  set q2 := (findRootAux fuel q1 b).2 with hq2def
  set rB := (findRootAux fuel q1 b).1 with hrBdef
  have hrb : IsRoot p b rB := (iff1 b rB).mp hrb1
  have roots2 : ∀ y, q2 y = y ↔ p y = y := fun y => (roots2a y).trans (roots1 y)
  have iff2 : ∀ y s, IsRoot q2 y s ↔ IsRoot p y s :=
    fun y s => (iff2a y s).trans (iff1 y s)
  have off2 : ∀ z, z ∉ ids → q2 z = p z :=
    fun z hz => (off2a z hz).trans (off1 z hz)
  have hrAin : rA ∈ ids := preach_closure p ids hcl a rA hra.1 ha
  have hrBin : rB ∈ ids := preach_closure p ids hcl b rB hrb.1 hb
  have hq2rA : q2 rA = rA := (roots2 rA).mpr hra.2
  have hq2rB : q2 rB = rB := (roots2 rB).mpr hrb.2
  split_ifs with h1 h2 h3
  · exact ⟨fun _ => ⟨rfl, ok2, roots2, iff2, ⟨rB, h1 ▸ hra, hrb⟩, cl2a, off2⟩,
      fun hc => by simp at hc⟩
  · obtain ⟨hnot, hsame, htrans, hroots, hclid, hoffid⟩ :=
      union_branch_common p q2 a b rB rA ids iff2 roots2 cl2a off2
        h1 hrb.2 hra.2 hrBin hrAin (Or.inr ⟨hra, hrb⟩)
    exact ⟨fun hc => by simp at hc,
      fun _ => ⟨rB, rA, hnot, hsame,
        attach_okChain q2 rank rA rB ok2 h2,
        fun y => Nat.le_succ _, htrans, hrAin, hra.2, hroots, hclid, hoffid⟩⟩
  · obtain ⟨hnot, hsame, htrans, hroots, hclid, hoffid⟩ :=
      union_branch_common p q2 a b rA rB ids iff2 roots2 cl2a off2
        (fun heq => h1 heq.symm) hra.2 hrb.2 hrAin hrBin (Or.inl ⟨hra, hrb⟩)
    exact ⟨fun hc => by simp at hc,
      fun _ => ⟨rA, rB, hnot, hsame,
        attach_okChain q2 rank rB rA ok2 h3,
        fun y => Nat.le_succ _, htrans, hrBin, hrb.2, hroots, hclid, hoffid⟩⟩
  · obtain ⟨hnot, hsame, htrans, hroots, hclid, hoffid⟩ :=
      union_branch_common p q2 a b rA rB ids iff2 roots2 cl2a off2
        (fun heq => h1 heq.symm) hra.2 hrb.2 hrAin hrBin (Or.inl ⟨hra, hrb⟩)
    have heqrank : rank rA = rank rB := by omega
    have hokbump : OkChain (fun y => if y = rB then rA else q2 y)
        (fun y => if y = rA then rank rA + 1 else rank y) := by
      intro y hy
      show (if y = rA then rank rA + 1 else rank y)
          < (if (if y = rB then rA else q2 y) = rA then rank rA + 1
             else rank (if y = rB then rA else q2 y))
      by_cases hy2 : y = rB
      · rw [if_pos hy2, if_pos rfl]
        have hyrA : y ≠ rA := by
          rw [hy2]
          exact fun heq => h1 heq.symm
        rw [if_neg hyrA, hy2]
        omega
      · have hq2y : q2 y ≠ y := by
          intro hq
          apply hy
          show (if y = rB then rA else q2 y) = y
          rw [if_neg hy2]
          exact hq
        have hlt := ok2 y hq2y
        have hyrA : y ≠ rA := by
          intro heq
          apply hq2y
          rw [heq]
          exact hq2rA
        rw [if_neg hy2, if_neg hyrA]
        by_cases hq2 : q2 y = rA
        · rw [if_pos hq2]
          rw [hq2] at hlt
          omega
        · rw [if_neg hq2]
          exact hlt
    have hbound : ∀ y, (if y = rA then rank rA + 1 else rank y) ≤ rank y + 1 := by
      intro y
      by_cases hy : y = rA
      · rw [if_pos hy, hy]
      · rw [if_neg hy]
        exact Nat.le_succ _
    exact ⟨fun hc => by simp at hc,
      fun _ => ⟨rA, rB, hnot, hsame, hokbump, hbound, htrans, hrBin, hrb.2,
        hroots, hclid, hoffid⟩⟩

lemma stepKruskal_finish_nil (s : KruskalState) (hq : s.remainingEdges = []) :
    (stepKruskal s).1 = { s with finished := true } := by
  simp [stepKruskal, hq]

lemma stepKruskal_finish_full (s : KruskalState) (edge : Edge) (rest : List Edge)
    (hq : s.remainingEdges = edge :: rest)
    (hfull : s.graph.nodes.length - 1 ≤ s.edgesMST.length) :
    (stepKruskal s).1 = { s with finished := true } := by
  simp [stepKruskal, hq, hfull]

lemma stepKruskal_pop_add (s : KruskalState) (edge : Edge) (rest : List Edge)
    (hq : s.remainingEdges = edge :: rest)
    (hnotfull : ¬ (s.graph.nodes.length - 1 ≤ s.edgesMST.length))
    (hu : (unionSets s.graph.nodes.length edge.src edge.dst s.parent s.rank).1 = true) :
    (stepKruskal s).1 = { s with
      remainingEdges := rest
      parent := (unionSets s.graph.nodes.length edge.src edge.dst s.parent s.rank).2.1
      rank := (unionSets s.graph.nodes.length edge.src edge.dst s.parent s.rank).2.2
      edgesTraversed := keyInsert (canonicalEdgeKey edge.src edge.dst) s.edgesTraversed
      edgesMST := keyInsert (canonicalEdgeKey edge.src edge.dst) s.edgesMST } := by
  simp [stepKruskal, hq, hnotfull, hu]

lemma stepKruskal_pop_skip (s : KruskalState) (edge : Edge) (rest : List Edge)
    (hq : s.remainingEdges = edge :: rest)
    (hnotfull : ¬ (s.graph.nodes.length - 1 ≤ s.edgesMST.length))
    (hu : (unionSets s.graph.nodes.length edge.src edge.dst s.parent s.rank).1 = false) :
    (stepKruskal s).1 = { s with
      remainingEdges := rest
      parent := (unionSets s.graph.nodes.length edge.src edge.dst s.parent s.rank).2.1
      rank := (unionSets s.graph.nodes.length edge.src edge.dst s.parent s.rank).2.2
      edgesTraversed := keyInsert (canonicalEdgeKey edge.src edge.dst) s.edgesTraversed } := by
  simp [stepKruskal, hq, hnotfull, hu]

/-- The Kruskal step invariant, relative to the input graph `g`: the
union-find structure is an acyclic rank-increasing forest over the node
ids, the number of roots plus the number of MST edges is the node count,
MST edges and processed edges join nodes of one class each. -/
structure KInv (g : Graph) (s : KruskalState) : Prop where
  graphEq : s.graph = g
  ok : OkChain s.parent s.rank
  rbound : ∀ y, s.rank y ≤ s.edgesMST.length
  closure : ∀ z ∈ g.nodes, s.parent z ∈ g.nodes
  offId : ∀ z, z ∉ g.nodes → s.parent z = z
  rootsCount : (rootsOf s.parent g.nodes).length + s.edgesMST.length = g.nodes.length
  mstSame : ∀ k ∈ s.edgesMST, SameRoot s.parent k.1 k.2
  processed : ∃ done, done ++ s.remainingEdges = sortEdges g.edges
      ∧ ∀ e ∈ done, SameRoot s.parent e.src e.dst
  finInv : s.finished = true →
      (s.remainingEdges = [] ∨ g.nodes.length - 1 ≤ s.edgesMST.length)

lemma headD_mem (l : List Nat) (h : l ≠ []) : l.headD 0 ∈ l := by
  cases hl : l with
  | nil => exact absurd hl h
  | cons a t => simp [hl]

/-- Any state satisfying the invariant has strictly fewer roots than
`nodeCount` worth of rank everywhere, making node-count fuel sufficient. -/
lemma kInv_rank_lt (g : Graph) (s : KruskalState) (hnd : g.nodes.Nodup)
    (hne : g.nodes ≠ []) (h : KInv g s) : ∀ y, s.rank y < g.nodes.length := by
  have hB : ∀ y, s.rank y < s.edgesMST.length + 1 :=
    fun y => Nat.lt_succ_of_le (h.rbound y)
  obtain ⟨r, hr⟩ := root_exists s.parent s.rank h.ok _ hB (g.nodes.headD 0)
  have hrin : r ∈ g.nodes :=
    preach_closure s.parent g.nodes h.closure _ r hr.1 (headD_mem g.nodes hne)
  have hroot : r ∈ rootsOf s.parent g.nodes := by
    rw [rootsOf, List.mem_filter]
    exact ⟨hrin, by simp [hr.2]⟩
  have hlen : 1 ≤ (rootsOf s.parent g.nodes).length :=
    List.length_pos.mpr (fun hc => by rw [hc] at hroot; exact absurd hroot (List.not_mem_nil r))
  have := h.rootsCount
  intro y
  have := h.rbound y
  omega

lemma kInv_start (g : Graph) : KInv g (startKruskal g) := by
  refine ⟨rfl, ?_, ?_, ?_, ?_, ?_, ?_, ⟨[], rfl, ?_⟩, ?_⟩
  · intro x hx
    exact absurd rfl hx
  · intro y
    exact Nat.le_refl 0
  · intro z hz
    exact hz
  · intro z _
    rfl
  · show (g.nodes.filter (fun y => y == y)).length + 0 = g.nodes.length
    have : g.nodes.filter (fun y => y == y) = g.nodes := by
      apply List.filter_eq_self.mpr
      intro a _
      simp
    rw [this]
    omega
  · intro k hk
    exact absurd hk (List.not_mem_nil k)
  · intro e he
    exact absurd he (List.not_mem_nil e)
  · intro hfin
    exact absurd hfin (by simp [startKruskal])

lemma sameRoot_key (p : Nat → Nat) (a b : Nat) (h : SameRoot p a b) :
    SameRoot p (canonicalEdgeKey a b).1 (canonicalEdgeKey a b).2 := by
  rcases le_total a b with hle | hle
  · have h1 : (canonicalEdgeKey a b).1 = a := by
      simp only [canonicalEdgeKey]
      omega
    have h2 : (canonicalEdgeKey a b).2 = b := by
      simp only [canonicalEdgeKey]
      omega
    rw [h1, h2]
    exact h
  · have h1 : (canonicalEdgeKey a b).1 = b := by
      simp only [canonicalEdgeKey]
      omega
    have h2 : (canonicalEdgeKey a b).2 = a := by
      simp only [canonicalEdgeKey]
      omega
    rw [h1, h2]
    exact sameRoot_symm p a b h

lemma key_sameRoot (p : Nat → Nat) (a b : Nat)
    (h : SameRoot p (canonicalEdgeKey a b).1 (canonicalEdgeKey a b).2) :
    SameRoot p a b := by
  rcases le_total a b with hle | hle
  · have h1 : (canonicalEdgeKey a b).1 = a := by
      simp only [canonicalEdgeKey]
      omega
    have h2 : (canonicalEdgeKey a b).2 = b := by
      simp only [canonicalEdgeKey]
      omega
    rw [h1, h2] at h
    exact h
  · have h1 : (canonicalEdgeKey a b).1 = b := by
      simp only [canonicalEdgeKey]
      omega
    have h2 : (canonicalEdgeKey a b).2 = a := by
      simp only [canonicalEdgeKey]
      omega
    rw [h1, h2] at h
    exact sameRoot_symm p b a h

lemma sameRoot_transfer (p p2 : Nat → Nat) (w l : Nat)
    (htrans : ∀ y s, IsRoot p y s → IsRoot p2 y (if s = l then w else s))
    (a b : Nat) (h : SameRoot p a b) : SameRoot p2 a b := by
  obtain ⟨r, h1, h2⟩ := h
  exact ⟨if r = l then w else r, htrans a r h1, htrans b r h2⟩

lemma sameRoot_of_iff (p p2 : Nat → Nat)
    (hiff : ∀ y s, IsRoot p2 y s ↔ IsRoot p y s)
    (a b : Nat) (h : SameRoot p a b) : SameRoot p2 a b := by
  obtain ⟨r, h1, h2⟩ := h
  exact ⟨r, (hiff a r).mpr h1, (hiff b r).mpr h2⟩

lemma kInv_step (g : Graph) (hnd : g.nodes.Nodup) (hne : g.nodes ≠ [])
    (hvalid : ∀ e ∈ g.edges, e.src ∈ g.nodes ∧ e.dst ∈ g.nodes)
    (s : KruskalState) (h : KInv g s) : KInv g (stepKruskal s).1 := by
  cases hq : s.remainingEdges with
  | nil =>
    rw [stepKruskal_finish_nil s hq]
    exact ⟨h.graphEq, h.ok, h.rbound, h.closure, h.offId, h.rootsCount,
      h.mstSame, h.processed, fun _ => Or.inl hq⟩
  | cons edge rest =>
    by_cases hfull : s.graph.nodes.length - 1 ≤ s.edgesMST.length
    · rw [stepKruskal_finish_full s edge rest hq hfull]
      refine ⟨h.graphEq, h.ok, h.rbound, h.closure, h.offId, h.rootsCount,
        h.mstSame, h.processed, ?_⟩
      intro _
      right
      rw [← h.graphEq]
      exact hfull
    · have hfin : s.finished = false := by
        cases hfs : s.finished
        · rfl
        · rcases h.finInv hfs with he | hf
          · rw [he] at hq
            exact List.noConfusion hq
          · rw [← h.graphEq] at hf
            exact absurd hf hfull
      obtain ⟨done, hsplit, hdone⟩ := h.processed
      have hedge_sorted : edge ∈ sortEdges g.edges := by
        rw [← hsplit, hq]
        exact List.mem_append_right _ (List.mem_cons_self _ _)
      have hedge : edge ∈ g.edges := (stableSort_mem _ _ _).mp hedge_sorted
      have hsrc : edge.src ∈ g.nodes := (hvalid edge hedge).1
      have hdst : edge.dst ∈ g.nodes := (hvalid edge hedge).2
      have hBn : ∀ y, s.rank y < g.nodes.length := kInv_rank_lt g s hnd hne h
      have hfuel : g.nodes.length ≤ s.graph.nodes.length := by
        rw [h.graphEq]
      have uspec := unionSets_spec s.parent s.rank edge.src edge.dst
        s.graph.nodes.length g.nodes.length g.nodes h.ok hBn hfuel
        h.closure hsrc hdst
      have hprocessed_eq : done ++ [edge] ++ rest = sortEdges g.edges := by
        rw [List.append_assoc, List.singleton_append, ← hq, hsplit]
      cases hu : (unionSets s.graph.nodes.length edge.src edge.dst s.parent s.rank).1
      · obtain ⟨hrk, hok, hroots, hiff, hsame, hclid, hoffid⟩ := uspec.1 hu
        rw [stepKruskal_pop_skip s edge rest hq hfull hu]
        refine ⟨h.graphEq, ?_, ?_, hclid, ?_, ?_, ?_, ?_, ?_⟩
        · show OkChain
              (unionSets s.graph.nodes.length edge.src edge.dst s.parent s.rank).2.1
              (unionSets s.graph.nodes.length edge.src edge.dst s.parent s.rank).2.2
          rw [hrk]
          exact hok
        · intro y
          show (unionSets s.graph.nodes.length edge.src edge.dst s.parent s.rank).2.2 y
              ≤ s.edgesMST.length
          rw [hrk]
          exact h.rbound y
        · intro z hz
          exact (hoffid z hz).trans (h.offId z hz)
        · show (rootsOf (unionSets s.graph.nodes.length edge.src edge.dst
              s.parent s.rank).2.1 g.nodes).length + s.edgesMST.length = g.nodes.length
          rw [rootsOf_congr s.parent _ g.nodes (fun y _ => hroots y)]
          exact h.rootsCount
        · intro k hk
          exact sameRoot_of_iff s.parent _ hiff k.1 k.2 (h.mstSame k hk)
        · refine ⟨done ++ [edge], hprocessed_eq, ?_⟩
          intro e he
          rcases List.mem_append.mp he with he1 | he2
          · exact sameRoot_of_iff s.parent _ hiff e.src e.dst (hdone e he1)
          · rw [List.mem_singleton] at he2
            subst he2
            exact sameRoot_of_iff s.parent _ hiff e.src e.dst hsame
        · intro hf
          have hf2 : s.finished = true := hf
          rw [hfin] at hf2
          exact Bool.noConfusion hf2
      · obtain ⟨w, l, hnot, hsame', hok', hbound', htrans, hlin, hpl, hroots',
          hclid, hoffid⟩ := uspec.2 hu
        have hkey : canonicalEdgeKey edge.src edge.dst ∉ s.edgesMST := by
          intro hk
          exact hnot (key_sameRoot s.parent edge.src edge.dst (h.mstSame _ hk))
        rw [stepKruskal_pop_add s edge rest hq hfull hu]
        have hkeyeq : keyInsert (canonicalEdgeKey edge.src edge.dst) s.edgesMST
            = canonicalEdgeKey edge.src edge.dst :: s.edgesMST :=
          keyInsert_fresh _ _ hkey
        refine ⟨h.graphEq, hok', ?_, hclid, ?_, ?_, ?_, ?_, ?_⟩
        · intro y
          show (unionSets s.graph.nodes.length edge.src edge.dst s.parent s.rank).2.2 y
              ≤ (keyInsert (canonicalEdgeKey edge.src edge.dst) s.edgesMST).length
          rw [hkeyeq, List.length_cons]
          have h1 := hbound' y
          have h2 := h.rbound y
          omega
        · intro z hz
          exact (hoffid z hz).trans (h.offId z hz)
        · show (rootsOf (unionSets s.graph.nodes.length edge.src edge.dst
              s.parent s.rank).2.1 g.nodes).length
            + (keyInsert (canonicalEdgeKey edge.src edge.dst) s.edgesMST).length
            = g.nodes.length
          rw [hkeyeq, List.length_cons]
          have hdrop := rootsOf_length_drop g.nodes hnd s.parent _ l hlin hpl hroots'
          have := h.rootsCount
          omega
        · intro k hk
          rw [hkeyeq] at hk
          rcases List.mem_cons.mp hk with rfl | hk
          · exact sameRoot_key _ edge.src edge.dst hsame'
          · exact sameRoot_transfer s.parent _ w l htrans k.1 k.2 (h.mstSame k hk)
        · refine ⟨done ++ [edge], hprocessed_eq, ?_⟩
          intro e he
          rcases List.mem_append.mp he with he1 | he2
          · exact sameRoot_transfer s.parent _ w l htrans e.src e.dst (hdone e he1)
          · rw [List.mem_singleton] at he2
            subst he2
            exact hsame'
        · intro hf
          have hf2 : s.finished = true := hf
          rw [hfin] at hf2
          exact Bool.noConfusion hf2

lemma kInv_iter (g : Graph) (hnd : g.nodes.Nodup) (hne : g.nodes ≠ [])
    (hvalid : ∀ e ∈ g.edges, e.src ∈ g.nodes ∧ e.dst ∈ g.nodes) (k : Nat) :
    KInv g (kruskalIter g k) := by
  induction k with
  | zero => exact kInv_start g
  | succ k ih => exact kInv_step g hnd hne hvalid _ ih

lemma reach_sameRoot (p : Nat → Nat) (edges : List Edge)
    (hedges : ∀ e ∈ edges, SameRoot p e.src e.dst)
    (hex : ∀ x, ∃ r, IsRoot p x r)
    (u v : Nat) (h : Reach edges u v) : SameRoot p u v := by
  induction h with
  | refl =>
    obtain ⟨r, hr⟩ := hex u
    exact ⟨r, hr, hr⟩
  | tail hreach hstep ih =>
    rename_i b c
    obtain ⟨e, he, hor⟩ := hstep
    have hbc : SameRoot p b c := by
      have hs := hedges e he
      rcases hor with ⟨h1, h2⟩ | ⟨h1, h2⟩
      · rw [h1, h2] at hs
        exact hs
      · rw [h1, h2] at hs
        exact sameRoot_symm p c b hs
    exact sameRoot_trans p u b c ih hbc

lemma rootsOf_singleton (p : Nat → Nat) (ids : List Nat) (hnd : ids.Nodup)
    (r0 : Nat) (hr0 : r0 ∈ ids) (hr0root : p r0 = r0)
    (hall : ∀ y ∈ ids, p y = y → y = r0) : (rootsOf p ids).length = 1 := by
  have hmem : r0 ∈ rootsOf p ids := by
    rw [rootsOf, List.mem_filter]
    exact ⟨hr0, by simp [hr0root]⟩
  have hsub : ∀ y ∈ rootsOf p ids, y = r0 := by
    intro y hy
    rw [rootsOf, List.mem_filter] at hy
    exact hall y hy.1 (by simpa using hy.2)
  have hndf : (rootsOf p ids).Nodup := hnd.filter _
  cases hl : rootsOf p ids with
  | nil =>
    rw [hl] at hmem
    exact absurd hmem (List.not_mem_nil _)
  | cons x t =>
    rw [hl] at hsub hndf
    cases t with
    | nil => rfl
    | cons y t2 =>
      have hx : x = r0 := hsub x (List.mem_cons_self _ _)
      have hy : y = r0 := hsub y (List.mem_cons_of_mem _ (List.mem_cons_self _ _))
      have hxy : x ∉ y :: t2 := (List.nodup_cons.mp hndf).1
      refine absurd ?_ hxy
      rw [hx, ← hy]
      exact List.mem_cons_self y t2

lemma kruskal_complete (g : Graph) (hnd : g.nodes.Nodup) (hne : g.nodes ≠ [])
    (hvalid : ∀ e ∈ g.edges, e.src ∈ g.nodes ∧ e.dst ∈ g.nodes)
    (hconn : ∀ x ∈ g.nodes, Reach g.edges (g.nodes.headD 0) x) (k : Nat)
    (hfin : (kruskalIter g k).finished = true) :
    (kruskalIter g k).edgesMST.length = g.nodes.length - 1 := by
  have h := kInv_iter g hnd hne hvalid k
  have hB : ∀ y, (kruskalIter g k).rank y < (kruskalIter g k).edgesMST.length + 1 :=
    fun y => Nat.lt_succ_of_le (h.rbound y)
  have hex : ∀ x, ∃ r, IsRoot (kruskalIter g k).parent x r :=
    root_exists _ _ h.ok _ hB
  have hstart : g.nodes.headD 0 ∈ g.nodes := headD_mem g.nodes hne
  obtain ⟨r0, hr0⟩ := hex (g.nodes.headD 0)
  have hr0in : r0 ∈ g.nodes :=
    preach_closure _ g.nodes h.closure _ r0 hr0.1 hstart
  have hroots1 : 1 ≤ (rootsOf (kruskalIter g k).parent g.nodes).length := by
    have hmem : r0 ∈ rootsOf (kruskalIter g k).parent g.nodes := by
      rw [rootsOf, List.mem_filter]
      exact ⟨hr0in, by simp [hr0.2]⟩
    exact List.length_pos.mpr
      (fun hc => by rw [hc] at hmem; exact absurd hmem (List.not_mem_nil r0))
  rcases h.finInv hfin with hempty | hfull
  · obtain ⟨done, hsplit, hdone⟩ := h.processed
    rw [hempty, List.append_nil] at hsplit
    have hall : ∀ e ∈ g.edges, SameRoot (kruskalIter g k).parent e.src e.dst := by
      intro e he
      exact hdone e (by rw [hsplit]; exact (stableSort_mem _ e g.edges).mpr he)
    have hsame : ∀ x ∈ g.nodes, SameRoot (kruskalIter g k).parent (g.nodes.headD 0) x :=
      fun x hx => reach_sameRoot _ g.edges hall hex _ x (hconn x hx)
    have hallroots : ∀ y ∈ g.nodes, (kruskalIter g k).parent y = y → y = r0 := by
      intro y hy hyroot
      obtain ⟨r, h1, h2⟩ := hsame y hy
      have hry : r = y := by
        obtain ⟨hc, -⟩ := h2
        exact preach_fix _ y r hyroot hc
      rw [hry] at h1
      exact isRoot_unique _ _ y r0 h1 hr0
    have hsing := rootsOf_singleton (kruskalIter g k).parent g.nodes hnd r0 hr0in
      hr0.2 hallroots
    have := h.rootsCount
    omega
  · have := h.rootsCount
    omega

/-- Claim C9: for every well-formed connected input graph, running either
the Prim or the Kruskal state machine to completion (`finished = true`)
leaves an MST edge set of exactly `nodeCount - 1` edges. -/
theorem mst_edge_count_on_completion (g : Graph)
    (hnd : g.nodes.Nodup) (hne : g.nodes ≠ [])
    (hvalid : ∀ e ∈ g.edges, e.src ∈ g.nodes ∧ e.dst ∈ g.nodes)
    (hconn : ∀ x ∈ g.nodes, Reach g.edges (g.nodes.headD 0) x) (k : Nat) :
    ((primIter g k).finished = true →
      (primIter g k).edgesMST.length = g.nodes.length - 1)
    ∧ ((kruskalIter g k).finished = true →
      (kruskalIter g k).edgesMST.length = g.nodes.length - 1) :=
  ⟨prim_complete g ⟨hnd, hne, hvalid⟩ hconn k,
    kruskal_complete g hnd hne hvalid hconn k⟩

/-- Connectivity of the fixed 3-node scenario graph. -/
lemma conn6 : ∀ x ∈ g6.nodes, Reach g6.edges (g6.nodes.headD 0) x := by
  intro x hx
  have h01 : AdjRel g6.edges 0 1 := ⟨⟨0, 1, 2⟩, by simp [g6], Or.inl ⟨rfl, rfl⟩⟩
  have h12 : AdjRel g6.edges 1 2 := ⟨⟨1, 2, 3⟩, by simp [g6], Or.inl ⟨rfl, rfl⟩⟩
  have hx3 : x = 0 ∨ x = 1 ∨ x = 2 := by simpa [g6] using hx
  rcases hx3 with rfl | rfl | rfl
  · exact Relation.ReflTransGen.refl
  · exact Relation.ReflTransGen.single h01
  · exact Relation.ReflTransGen.tail (Relation.ReflTransGen.single h01) h12

/-- Witness for `mst_edge_count_on_completion` on the 3-node scenario
graph after four steps (both machines have finished by then). -/
theorem mst_edge_count_witness :
    g6.nodes.Nodup ∧ g6.nodes ≠ []
    ∧ (∀ e ∈ g6.edges, e.src ∈ g6.nodes ∧ e.dst ∈ g6.nodes)
    ∧ (∀ x ∈ g6.nodes, Reach g6.edges (g6.nodes.headD 0) x)
    ∧ (((primIter g6 4).finished = true →
        (primIter g6 4).edgesMST.length = g6.nodes.length - 1)
      ∧ ((kruskalIter g6 4).finished = true →
        (kruskalIter g6 4).edgesMST.length = g6.nodes.length - 1)) :=
  ⟨by decide, by decide, by decide, conn6,
    mst_edge_count_on_completion g6 (by decide) (by decide) (by decide) conn6 4⟩

lemma preach_iterate (p : Nat → Nat) (x r : Nat) (h : PReach p x r) :
    ∃ m, p^[m] x = r := by
  induction h with
  | refl => exact ⟨0, rfl⟩
  | tail hreach hstep ih =>
    obtain ⟨m, hm⟩ := ih
    refine ⟨m + 1, ?_⟩
    rw [Function.iterate_succ_apply', hm]
    exact hstep

/-- Claim C10: in every Kruskal traversal state reachable by `step()`
calls on a well-formed graph, following parent pointers from any node id
reaches a fixed point (the union-find forest stays acyclic), so `findRoot`
terminates; path compression and union by rank preserve this. -/
theorem kruskal_parent_map_acyclic (g : Graph)
    (hnd : g.nodes.Nodup) (hne : g.nodes ≠ [])
    (hvalid : ∀ e ∈ g.edges, e.src ∈ g.nodes ∧ e.dst ∈ g.nodes)
    (k : Nat) (x : Nat) (hx : x ∈ g.nodes) :
    ∃ r m, ((kruskalIter g k).parent)^[m] x = r
      ∧ (kruskalIter g k).parent r = r := by
  have h := kInv_iter g hnd hne hvalid k
  have hB : ∀ y, (kruskalIter g k).rank y < (kruskalIter g k).edgesMST.length + 1 :=
    fun y => Nat.lt_succ_of_le (h.rbound y)
  obtain ⟨r, hr⟩ := root_exists _ _ h.ok _ hB x
  obtain ⟨m, hm⟩ := preach_iterate _ x r hr.1
  exact ⟨r, m, hm, hr.2⟩

/-- Witness for `kruskal_parent_map_acyclic` on the 3-node scenario graph
after two steps, at node 1. -/
theorem kruskal_parent_map_acyclic_witness :
    g6.nodes.Nodup ∧ g6.nodes ≠ []
    ∧ (∀ e ∈ g6.edges, e.src ∈ g6.nodes ∧ e.dst ∈ g6.nodes)
    ∧ (1 : Nat) ∈ g6.nodes
    ∧ ∃ r m, ((kruskalIter g6 2).parent)^[m] 1 = r
        ∧ (kruskalIter g6 2).parent r = r :=
  ⟨by decide, by decide, by decide, by decide,
    kruskal_parent_map_acyclic g6 (by decide) (by decide) (by decide) 2 1 (by decide)⟩

end AlgoViz
